import Mathlib

/-!
Shallow embedding of the SCIM-bridge state-reconciliation subsystem of
`vault-config-as-code` (directory `scim-bridge/app/services/`), together with
proofs about the behaviour of its three core components:

* `YAMLGenerator` (`yaml_generator.py`): SCIM payload → identity document,
  field sanitisation;
* `GroupHandler` (`group_handler.py`): group-membership reconciliation over a
  directory of group documents;
* `UserStore` (`user_store.py`): the JSON-file backed external-id → record
  mapping store.

Modelling conventions:
* Python strings are Lean `String`s; `str.lower()` is modelled on the ASCII
  range (every claim we settle uses ASCII inputs only).
* A directory of group files is a list of `(filename, document)` pairs in
  directory-listing order; only parseable group documents (mappings that carry
  a `name` key) are modelled, as those are the only files the handler reads.
* Python `set` iteration order is unspecified; the model fixes it to be
  first-occurrence input order (`List.dedup` keeps the last duplicate, so we
  only apply it where order is irrelevant or quantified over).
* File-system I/O always succeeds in the model (the claims under scrutiny all
  assume "no write failures").
-/

namespace VaultScim

/-! ### String ordering

Python compares strings lexicographically by code point and `list.sort()`
sorts ascending with that order.  Lean core's `String.le` does not reduce well
in the kernel, so we give an executable code-point lexicographic order.
-/

/-- Lexicographic `≤` on character lists, comparing code points.  Models the
Python string order used by `list.sort()` / `sorted()`. -/
def lexLe : List Char → List Char → Bool
  | [], _ => true
  | _ :: _, [] => false
  | a :: as, b :: bs =>
    if a.toNat < b.toNat then true
    else if b.toNat < a.toNat then false
    else lexLe as bs

/-- Python's string `≤` (code-point lexicographic). -/
def strLe (a b : String) : Bool := lexLe a.data b.data

theorem lexLe_total (a b : List Char) : lexLe a b = true ∨ lexLe b a = true := by
  induction a generalizing b with
  | nil => left; rfl
  | cons x xs ih =>
    cases b with
    | nil => right; rfl
    | cons y ys =>
      simp only [lexLe]
      rcases Nat.lt_trichotomy x.toNat y.toNat with h | h | h
      · left; simp [h]
      · have : ¬ x.toNat < y.toNat := by omega
        have h2 : ¬ y.toNat < x.toNat := by omega
        rcases ih ys with h3 | h3 <;> simp [this, h2, h3, h]
      · right; simp [h]

theorem lexLe_trans {a b c : List Char} (h1 : lexLe a b = true)
    (h2 : lexLe b c = true) : lexLe a c = true := by
  induction a generalizing b c with
  | nil => rfl
  | cons x xs ih =>
    cases b with
    | nil => simp [lexLe] at h1
    | cons y ys =>
      cases c with
      | nil => simp [lexLe] at h2
      | cons z zs =>
        simp only [lexLe] at h1 h2 ⊢
        by_cases hxy : x.toNat < y.toNat <;> by_cases hyz : y.toNat < z.toNat
        · simp [show x.toNat < z.toNat by omega]
        · simp only [hyz, if_neg, if_false] at h2
          by_cases hzy : z.toNat < y.toNat
          · simp [hzy] at h2
          · have : y.toNat = z.toNat := by omega
            simp [show x.toNat < z.toNat by omega]
        · simp only [hxy, if_false] at h1
          by_cases hyx : y.toNat < x.toNat
          · simp [hyx] at h1
          · have : x.toNat = y.toNat := by omega
            simp [show x.toNat < z.toNat by omega]
        · simp only [hxy, if_false] at h1
          by_cases hyx : y.toNat < x.toNat
          · simp [hyx] at h1
          · simp only [hyx, if_false] at h1
            simp only [hyz, if_false] at h2
            by_cases hzy : z.toNat < y.toNat
            · simp [hzy] at h2
            · simp only [hzy, if_false] at h2
              have hxz : ¬ x.toNat < z.toNat := by omega
              have hzx : ¬ z.toNat < x.toNat := by omega
              simp only [hxz, hzx, if_false]
              exact ih h1 h2

instance : IsTotal String (fun a b => strLe a b = true) :=
  ⟨fun a b => lexLe_total a.data b.data⟩

instance : IsTrans String (fun a b => strLe a b = true) :=
  ⟨fun _ _ _ h1 h2 => lexLe_trans h1 h2⟩

/-- Python `list.sort()` on a list of strings (ascending, code-point order).
Any sorted permutation of a list of strings is unique as a list, so insertion
sort is an exact model. -/
def sortStrings (l : List String) : List String :=
  List.insertionSort (fun a b => strLe a b = true) l

theorem sortStrings_perm (l : List String) : (sortStrings l).Perm l :=
  List.perm_insertionSort _ l

theorem sortStrings_sorted (l : List String) :
    (sortStrings l).Sorted (fun a b => strLe a b = true) :=
  List.sorted_insertionSort _ l

theorem mem_sortStrings {a : String} {l : List String} :
    a ∈ sortStrings l ↔ a ∈ l :=
  (sortStrings_perm l).mem_iff

theorem count_sortStrings (a : String) (l : List String) :
    (sortStrings l).count a = l.count a :=
  (sortStrings_perm l).count_eq a

theorem nodup_sortStrings {l : List String} (h : l.Nodup) :
    (sortStrings l).Nodup :=
  ((sortStrings_perm l).nodup_iff).mpr h

/-! ### The field/name sanitisers

`yaml_generator.py` `_sanitize_field` (lines 140-170):
lower-case, replace `' '` (the space character only) by `'_'`, delete every
character outside `[a-z0-9_]`, `strip('_')`, then collapse runs of `'_'`,
falling back to `"user"` when empty.

`group_handler.py` `_sanitize_group_name` (lines 291-317):
same first three steps, but collapses runs of `'_'` *before* stripping, and
falls back to `"unknown_group"` when empty.
-/

/-- Python `str.lower()` restricted to ASCII (all inputs relevant to the
claims are ASCII; a non-ASCII letter is deleted by the `[^a-z0-9_]` filter in
both the model and the program).  65-90 are the code points `A`-`Z`. -/
def lowerChar (c : Char) : Char :=
  if 65 ≤ c.toNat && c.toNat ≤ 90 then Char.ofNat (c.toNat + 32) else c

/-- `value.replace(" ", "_")`, one character at a time. -/
def spaceToUnd (c : Char) : Char := if c == ' ' then '_' else c

/-- The character class kept by `re.sub(r'[^a-z0-9_]', '', ·)`:
97-122 are `a`-`z`, 48-57 are `0`-`9`. -/
def keepChar (c : Char) : Bool :=
  (97 ≤ c.toNat && c.toNat ≤ 122) || (48 ≤ c.toNat && c.toNat ≤ 57) || c == '_'

/-- `re.sub(r'_+', '_', ·)`: each maximal run of underscores becomes a single
underscore. -/
def collapseUnd : List Char → List Char
  | [] => []
  | [c] => [c]
  | a :: b :: r =>
    if a == '_' && b == '_' then collapseUnd (b :: r) else a :: collapseUnd (b :: r)

/-- `str.strip('_')`: remove all leading and trailing underscores. -/
def stripUnd (l : List Char) : List Char :=
  ((l.dropWhile (· == '_')).reverse.dropWhile (· == '_')).reverse

/-- The first three (identical) steps of both sanitisers: lower-case, replace
spaces by underscores, delete everything outside `[a-z0-9_]`. -/
def sanitizeCore (l : List Char) : List Char :=
  ((l.map lowerChar).map spaceToUnd).filter keepChar

namespace YAMLGenerator

/-- `YAMLGenerator._sanitize_field` (`yaml_generator.py` lines 140-170):
strip *then* collapse, fallback `"user"`. -/
def sanitize_field (s : String) : String :=
  if (collapseUnd (stripUnd (sanitizeCore s.data))).isEmpty then "user"
  else ⟨collapseUnd (stripUnd (sanitizeCore s.data))⟩

/-- `YAMLGenerator._generate_filename` (`yaml_generator.py` lines 172-206):
the same pipeline as `_sanitize_field` (with the same `"user"` fallback),
wrapped into `entraid_human_<token>.yaml`. -/
def generate_filename (display_name : String) : String :=
  "entraid_human_" ++ sanitize_field display_name ++ ".yaml"

end YAMLGenerator

namespace GroupHandler

/-- `GroupHandler._sanitize_group_name` (`group_handler.py` lines 291-317):
collapse *then* strip, fallback `"unknown_group"`. -/
def sanitize_group_name (s : String) : String :=
  if (stripUnd (collapseUnd (sanitizeCore s.data))).isEmpty then "unknown_group"
  else ⟨stripUnd (collapseUnd (sanitizeCore s.data))⟩

end GroupHandler

/-- The sanitiser algorithm exactly as the specification (§4.1) words it:
"replace **whitespace** with underscores; … collapse consecutive underscores
to one; trim leading/trailing underscores; if the result is empty, return
`"user"`".  Used to compare the spec's wording against the code. -/
def specSanitizeCore (s : String) : List Char :=
  stripUnd (collapseUnd (((s.data.map lowerChar).map
      (fun c => if c.isWhitespace then '_' else c)).filter keepChar))

def specSanitize (s : String) : String :=
  if (specSanitizeCore s).isEmpty then "user" else ⟨specSanitizeCore s⟩

/-- The spec §4.1 algorithm amended in one place: only the space character
(U+0020) is replaced by an underscore (other whitespace is deleted by the
character filter instead).  Everything else is as the spec words it,
including its collapse-before-trim order. -/
def specSanitizeAmended (s : String) : String :=
  if (stripUnd (collapseUnd (sanitizeCore s.data))).isEmpty then "user"
  else ⟨stripUnd (collapseUnd (sanitizeCore s.data))⟩

example : YAMLGenerator.sanitize_field "Senior Engineer" = "senior_engineer" := by decide
example : YAMLGenerator.sanitize_field "Platform  Engineering" = "platform_engineering" := by decide
example : YAMLGenerator.sanitize_field "R&D Department" = "rd_department" := by decide
example : YAMLGenerator.sanitize_field "" = "user" := by decide
example : YAMLGenerator.sanitize_field "!!!" = "user" := by decide
example : YAMLGenerator.sanitize_field "a\tb" = "ab" := by decide
example : specSanitize "a\tb" = "a_b" := by decide
example : GroupHandler.sanitize_group_name "Dev Team" = "dev_team" := by decide
example : GroupHandler.sanitize_group_name "Dev  Team" = "dev_team" := by decide
example : GroupHandler.sanitize_group_name "!!!" = "unknown_group" := by decide
example : GroupHandler.sanitize_group_name "__a__b__" = "a_b" := by decide
example : YAMLGenerator.generate_filename "Jane Example" = "entraid_human_jane_example.yaml" := by
  decide

/-! ### Structural lemmas about `collapseUnd` and `stripUnd` -/

theorem collapseUnd_eq_nil_iff {l : List Char} : collapseUnd l = [] ↔ l = [] := by
  induction l using collapseUnd.induct with
  | case1 => simp [collapseUnd]
  | case2 c => simp [collapseUnd]
  | case3 a b r h ih => simp [collapseUnd, h, ih]
  | case4 a b r h ih => simp [collapseUnd, h]

theorem head?_collapseUnd (l : List Char) : (collapseUnd l).head? = l.head? := by
  induction l using collapseUnd.induct with
  | case1 => rfl
  | case2 c => rfl
  | case3 a b r h ih =>
    have hab : a = '_' ∧ b = '_' := by simpa using h
    simp only [collapseUnd, h, if_true, ih, List.head?_cons]
    rw [hab.1, hab.2]
  | case4 a b r h ih => simp [collapseUnd, h]

theorem getLast?_collapseUnd (l : List Char) : (collapseUnd l).getLast? = l.getLast? := by
  induction l using collapseUnd.induct with
  | case1 => rfl
  | case2 c => rfl
  | case3 a b r h ih =>
    simp only [collapseUnd, h, if_true, List.getLast?_cons_cons]
    exact ih
  | case4 a b r h ih =>
    have hne : collapseUnd (b :: r) ≠ [] := by simp [collapseUnd_eq_nil_iff]
    obtain ⟨c, m, hm⟩ : ∃ c m, collapseUnd (b :: r) = c :: m := by
      cases hcm : collapseUnd (b :: r) with
      | nil => exact absurd hcm hne
      | cons c m => exact ⟨c, m, rfl⟩
    simp only [collapseUnd, h, Bool.false_eq_true, if_false, List.getLast?_cons_cons]
    rw [hm, List.getLast?_cons_cons, ← hm, ih]

theorem mem_of_mem_collapseUnd {x : Char} {l : List Char}
    (hx : x ∈ collapseUnd l) : x ∈ l := by
  induction l using collapseUnd.induct with
  | case1 => simp [collapseUnd] at hx
  | case2 c => simpa [collapseUnd] using hx
  | case3 a b r h ih =>
    simp only [collapseUnd, h, if_true] at hx
    exact List.mem_cons_of_mem a (ih hx)
  | case4 a b r h ih =>
    simp only [collapseUnd, h, Bool.false_eq_true, if_false] at hx
    rcases List.mem_cons.mp hx with h1 | h1
    · simp [h1]
    · exact List.mem_cons_of_mem a (ih h1)

/-- No two consecutive underscores. -/
def NoDbl (l : List Char) : Prop :=
  l.Chain' (fun x y => ¬(x = '_' ∧ y = '_'))

theorem noDbl_collapseUnd (l : List Char) : NoDbl (collapseUnd l) := by
  induction l using collapseUnd.induct with
  | case1 => exact List.chain'_nil
  | case2 c => exact List.chain'_singleton c
  | case3 a b r h ih => simpa [collapseUnd, h] using ih
  | case4 a b r h ih =>
    simp only [collapseUnd, h, Bool.false_eq_true, if_false]
    refine List.chain'_cons'.mpr ⟨?_, ih⟩
    intro y hy
    rw [head?_collapseUnd] at hy
    simp only [List.head?_cons, Option.mem_def, Option.some.injEq] at hy
    subst hy
    intro hc
    simp [hc.1, hc.2] at h

theorem collapseUnd_of_noDbl {l : List Char} (h : NoDbl l) : collapseUnd l = l := by
  induction l using collapseUnd.induct with
  | case1 => rfl
  | case2 c => rfl
  | case3 a b r hab ih =>
    have h1 : ¬(a = '_' ∧ b = '_') := (List.chain'_cons'.mp h).1 b rfl
    have hab2 : a = '_' ∧ b = '_' := by simpa using hab
    exact absurd hab2 h1
  | case4 a b r hab ih =>
    have h2 : NoDbl (b :: r) := (List.chain'_cons'.mp h).2
    simp [collapseUnd, hab, ih h2]

theorem collapseUnd_append_singleton (l : List Char) (c : Char) :
    collapseUnd (l ++ [c]) =
      if l.getLast? = some '_' ∧ c = '_' then collapseUnd l else collapseUnd l ++ [c] := by
  induction l using collapseUnd.induct with
  | case1 => simp [collapseUnd]
  | case2 d =>
    by_cases hd : d = '_' ∧ c = '_'
    · simp [collapseUnd, hd.1, hd.2]
    · have : ¬(d == '_' && c == '_') = true := by
        simp only [Bool.and_eq_true, beq_iff_eq]
        exact hd
      simp [collapseUnd, this, hd]
  | case3 a b r h ih =>
    have e1 : (a :: b :: r) ++ [c] = a :: ((b :: r) ++ [c]) := rfl
    have e2 : (b :: r) ++ [c] = b :: (r ++ [c]) := rfl
    have e3 : collapseUnd (a :: b :: (r ++ [c])) = collapseUnd (b :: (r ++ [c])) := by
      simp [collapseUnd, h]
    have e4 : collapseUnd (a :: b :: r) = collapseUnd (b :: r) := by
      simp [collapseUnd, h]
    rw [e1, e2, e3, ← e2, ih, e4, List.getLast?_cons_cons]
  | case4 a b r h ih =>
    have e1 : (a :: b :: r) ++ [c] = a :: ((b :: r) ++ [c]) := rfl
    have e3 : collapseUnd (a :: ((b :: r) ++ [c])) = a :: collapseUnd ((b :: r) ++ [c]) := by
      rw [show (b :: r) ++ [c] = b :: (r ++ [c]) from rfl]
      simp [collapseUnd, h]
    have e4 : collapseUnd (a :: b :: r) = a :: collapseUnd (b :: r) := by
      simp [collapseUnd, h]
    rw [e1, e3, ih, e4, List.getLast?_cons_cons]
    by_cases hc : (b :: r).getLast? = some '_' ∧ c = '_' <;> simp [hc]

theorem collapseUnd_reverse (l : List Char) :
    collapseUnd l.reverse = (collapseUnd l).reverse := by
  induction l using collapseUnd.induct with
  | case1 => rfl
  | case2 c => rfl
  | case3 a b r h ih =>
    have hab : a = '_' ∧ b = '_' := by simpa using h
    have : (a :: b :: r).reverse = (b :: r).reverse ++ [a] := by
      simp [List.reverse_cons]
    rw [this, collapseUnd_append_singleton, List.getLast?_reverse]
    simp only [List.head?_cons, collapseUnd, h, if_true]
    rw [if_pos ⟨by rw [hab.2], hab.1⟩, ih]
  | case4 a b r h ih =>
    have hab : ¬(b = '_' ∧ a = '_') := by
      intro hc
      simp [hc.1, hc.2] at h
    have : (a :: b :: r).reverse = (b :: r).reverse ++ [a] := by
      simp [List.reverse_cons]
    rw [this, collapseUnd_append_singleton, List.getLast?_reverse]
    simp only [List.head?_cons, collapseUnd, h, Bool.false_eq_true, if_false]
    rw [if_neg (by simpa using hab), ih, List.reverse_cons]

theorem dropWhile_collapseUnd (l : List Char) :
    (collapseUnd l).dropWhile (· == '_') = collapseUnd (l.dropWhile (· == '_')) := by
  induction l using collapseUnd.induct with
  | case1 => rfl
  | case2 c =>
    by_cases hc : c = '_' <;> simp [collapseUnd, List.dropWhile_cons, hc]
  | case3 a b r h ih =>
    have hab : a = '_' ∧ b = '_' := by simpa using h
    obtain ⟨ha, hb⟩ := hab
    subst ha; subst hb
    simp only [collapseUnd, h, if_true, ih]
    rw [List.dropWhile_cons, if_pos (by simp), List.dropWhile_cons, if_pos (by simp),
      List.dropWhile_cons, if_pos (by simp)]
  | case4 a b r h ih =>
    by_cases ha : a = '_'
    · subst ha
      have hb : b ≠ '_' := by
        intro hc
        rw [hc] at h
        simp at h
      cases hcm : collapseUnd (b :: r) with
      | nil => exact absurd (collapseUnd_eq_nil_iff.mp hcm) (by simp)
      | cons c m =>
        have hcb : c = b := by
          have h2 := head?_collapseUnd (b :: r)
          rw [hcm] at h2
          simpa using h2
        rw [hcb] at hcm
        have l1 : List.dropWhile (· == '_') (collapseUnd ('_' :: b :: r))
            = collapseUnd (b :: r) := by
          have e4 : collapseUnd ('_' :: b :: r) = '_' :: collapseUnd (b :: r) := by
            simp [collapseUnd, h, hb]
          rw [e4, List.dropWhile_cons, if_pos (by simp), hcm,
            List.dropWhile_cons, if_neg (by simpa using hb), ← hcm]
        have l2 : List.dropWhile (· == '_') ('_' :: b :: r) = b :: r := by
          rw [List.dropWhile_cons, if_pos (by simp),
            List.dropWhile_cons, if_neg (by simpa using hb)]
        rw [l1, l2]
    · have e4 : collapseUnd (a :: b :: r) = a :: collapseUnd (b :: r) := by
        simp [collapseUnd, h]
      have l1 : List.dropWhile (· == '_') (a :: collapseUnd (b :: r))
          = a :: collapseUnd (b :: r) := by
        rw [List.dropWhile_cons, if_neg (by simpa using ha)]
      have l2 : List.dropWhile (· == '_') (a :: b :: r) = a :: b :: r := by
        rw [List.dropWhile_cons, if_neg (by simpa using ha)]
      rw [e4, l1, l2, e4]

theorem not_underscore_of_head_dropWhile {l : List Char} {x : Char}
    (h : (l.dropWhile (· == '_')).head? = some x) : x ≠ '_' := by
  have h2 := List.head?_dropWhile_not (· == '_') l
  rw [h] at h2
  simpa using h2

theorem getLast?_dropWhile_of_ne_nil {p : Char → Bool} {l : List Char}
    (h : l.dropWhile p ≠ []) : (l.dropWhile p).getLast? = l.getLast? := by
  obtain ⟨t, ht⟩ := List.dropWhile_suffix (l := l) p
  conv_rhs => rw [← ht]
  rw [List.getLast?_append_of_ne_nil _ h]

theorem head?_stripUnd_ne {l : List Char} {x : Char}
    (h : (stripUnd l).head? = some x) : x ≠ '_' := by
  unfold stripUnd at h
  rw [List.head?_reverse] at h
  have hne : ((l.dropWhile (· == '_')).reverse).dropWhile (· == '_') ≠ [] := by
    intro h0
    rw [h0] at h
    simp at h
  rw [getLast?_dropWhile_of_ne_nil hne, List.getLast?_reverse] at h
  exact not_underscore_of_head_dropWhile h

theorem getLast?_stripUnd_ne {l : List Char} {x : Char}
    (h : (stripUnd l).getLast? = some x) : x ≠ '_' := by
  unfold stripUnd at h
  rw [List.getLast?_reverse] at h
  exact not_underscore_of_head_dropWhile h

theorem stripUnd_eq_self {l : List Char} (h1 : l.head? ≠ some '_')
    (h2 : l.getLast? ≠ some '_') : stripUnd l = l := by
  have d1 : l.dropWhile (· == '_') = l := by
    cases l with
    | nil => rfl
    | cons a t =>
      rw [List.dropWhile_cons,
        if_neg (by simp only [beq_iff_eq]; intro hc; exact h1 (by simp [hc]))]
  have d2 : l.reverse.dropWhile (· == '_') = l.reverse := by
    cases hr : l.reverse with
    | nil => rfl
    | cons a t =>
      have ha : l.getLast? = some a := by
        rw [← List.head?_reverse, hr, List.head?_cons]
      rw [List.dropWhile_cons,
        if_neg (by simp only [beq_iff_eq]; intro hc; exact h2 (by rw [ha, hc]))]
  unfold stripUnd
  rw [d1, d2, List.reverse_reverse]

theorem mem_of_mem_stripUnd {l : List Char} {x : Char} (hx : x ∈ stripUnd l) :
    x ∈ l := by
  unfold stripUnd at hx
  rw [List.mem_reverse] at hx
  have hx2 := (List.dropWhile_sublist (l := (l.dropWhile (· == '_')).reverse)
    (· == '_')).mem hx
  rw [List.mem_reverse] at hx2
  exact (List.dropWhile_sublist (· == '_')).mem hx2

theorem stripUnd_collapseUnd_comm (l : List Char) :
    stripUnd (collapseUnd l) = collapseUnd (stripUnd l) := by
  unfold stripUnd
  rw [dropWhile_collapseUnd]
  rw [show collapseUnd (l.dropWhile (· == '_')) =
        (collapseUnd ((l.dropWhile (· == '_')).reverse)).reverse by
      rw [collapseUnd_reverse, List.reverse_reverse]]
  rw [show ((collapseUnd ((l.dropWhile (· == '_')).reverse)).reverse).reverse =
        collapseUnd ((l.dropWhile (· == '_')).reverse) from List.reverse_reverse _]
  rw [dropWhile_collapseUnd, collapseUnd_reverse]

/-! ### The sanitised output is a fixpoint of the pipeline -/

theorem lowerChar_of_keep {c : Char} (h : keepChar c = true) : lowerChar c = c := by
  have h95 : ('_' : Char).toNat = 95 := rfl
  unfold keepChar at h
  simp only [Bool.or_eq_true, Bool.and_eq_true, decide_eq_true_eq, beq_iff_eq] at h
  have hneg : ¬(65 ≤ c.toNat && c.toNat ≤ 90) = true := by
    simp only [Bool.and_eq_true, decide_eq_true_eq, not_and]
    intro h1 h2
    rcases h with ⟨h3, h4⟩ | ⟨h3, h4⟩ | rfl
    · omega
    · omega
    · rw [h95] at h2; omega
  unfold lowerChar
  rw [if_neg hneg]

theorem spaceToUnd_of_keep {c : Char} (h : keepChar c = true) : spaceToUnd c = c := by
  unfold spaceToUnd
  rw [if_neg]
  simp only [beq_iff_eq]
  intro hc
  subst hc
  exact absurd h (by decide)

theorem keep_of_mem_sanitizeCore {l : List Char} {x : Char}
    (hx : x ∈ sanitizeCore l) : keepChar x = true :=
  List.of_mem_filter hx

theorem map_eq_self_of_eq {α : Type} {f : α → α} :
    ∀ {l : List α}, (∀ a ∈ l, f a = a) → l.map f = l
  | [], _ => rfl
  | a :: t, h => by
    rw [List.map_cons, h a (List.mem_cons_self a t),
      map_eq_self_of_eq (fun b hb => h b (List.mem_cons_of_mem a hb))]

theorem sanitizeCore_of_keep {l : List Char} (hall : ∀ c ∈ l, keepChar c = true) :
    sanitizeCore l = l := by
  unfold sanitizeCore
  rw [map_eq_self_of_eq (fun c hc => lowerChar_of_keep (hall c hc)),
    map_eq_self_of_eq (fun c hc => spaceToUnd_of_keep (hall c hc))]
  exact List.filter_eq_self.mpr hall

/-- The un-collapsed/un-stripped token of `_sanitize_field`, i.e. the list the
`isEmpty` test in `sanitize_field` inspects. -/
def fieldToken (s : String) : List Char := collapseUnd (stripUnd (sanitizeCore s.data))

theorem fieldToken_keep {s : String} {x : Char} (hx : x ∈ fieldToken s) :
    keepChar x = true :=
  keep_of_mem_sanitizeCore (mem_of_mem_stripUnd (mem_of_mem_collapseUnd hx))

theorem fieldToken_fixpoint (s : String) :
    fieldToken (⟨fieldToken s⟩ : String) = fieldToken s := by
  have hdata : (⟨fieldToken s⟩ : String).data = fieldToken s := rfl
  have hcore : sanitizeCore (fieldToken s) = fieldToken s :=
    sanitizeCore_of_keep (fun c hc => fieldToken_keep hc)
  have hhead : (fieldToken s).head? ≠ some '_' := by
    intro hc
    have h1 : (stripUnd (sanitizeCore s.data)).head? = some '_' := by
      rw [← head?_collapseUnd]
      exact hc
    exact head?_stripUnd_ne h1 rfl
  have hlast : (fieldToken s).getLast? ≠ some '_' := by
    intro hc
    have h1 : (stripUnd (sanitizeCore s.data)).getLast? = some '_' := by
      rw [← getLast?_collapseUnd]
      exact hc
    exact getLast?_stripUnd_ne h1 rfl
  have hstrip : stripUnd (fieldToken s) = fieldToken s :=
    stripUnd_eq_self hhead hlast
  have hcollapse : collapseUnd (fieldToken s) = fieldToken s :=
    collapseUnd_of_noDbl (noDbl_collapseUnd _)
  unfold fieldToken at *
  rw [hdata, hcore, hstrip, hcollapse]

theorem sanitize_field_eq_fieldToken (s : String) :
    YAMLGenerator.sanitize_field s =
      if (fieldToken s).isEmpty then "user" else ⟨fieldToken s⟩ := rfl

theorem sanitize_field_idem (s : String) :
    YAMLGenerator.sanitize_field (YAMLGenerator.sanitize_field s) =
      YAMLGenerator.sanitize_field s := by
  rw [sanitize_field_eq_fieldToken s]
  by_cases he : (fieldToken s).isEmpty
  · rw [if_pos he]
    decide
  · rw [if_neg he, sanitize_field_eq_fieldToken, fieldToken_fixpoint, if_neg he]

theorem sanitize_field_eq_specSanitizeAmended (s : String) :
    YAMLGenerator.sanitize_field s = specSanitizeAmended s := by
  unfold YAMLGenerator.sanitize_field specSanitizeAmended
  rw [stripUnd_collapseUnd_comm]

theorem sanitize_group_name_eq (s : String) :
    GroupHandler.sanitize_group_name s =
      if (fieldToken s).isEmpty then "unknown_group"
      else YAMLGenerator.sanitize_field s := by
  unfold GroupHandler.sanitize_group_name YAMLGenerator.sanitize_field fieldToken
  rw [stripUnd_collapseUnd_comm]
  by_cases he : (collapseUnd (stripUnd (sanitizeCore s.data))).isEmpty
  · rw [if_pos he, if_pos he]
  · rw [if_neg he, if_neg he, if_neg he]

/-! ### `YAMLGenerator.scim_to_yaml` (`yaml_generator.py` lines 50-138)

A SCIM user payload is a JSON object whose relevant fields may each be
absent (`Option`).  The produced YAML document is modelled structurally
(its `yaml.dump` serialisation is not modelled).  `datetime.utcnow()` is
impure, so the build date is an explicit `today` parameter.
-/

structure ScimEmail where
  value : Option String
deriving DecidableEq

structure ScimUser where
  id : Option String
  userName : Option String
  displayName : Option String
  emails : Option (List ScimEmail)
  active : Option Bool
  title : Option String
  department : Option String
deriving DecidableEq

structure IdentityMetadata where
  version : String
  created_date : String
  description : String
  entraid_object_id : String
  entraid_upn : String
  provisioned_via_scim : Bool
deriving DecidableEq

structure IdentityBlock where
  name : String
  email : String
  role : String
  team : String
  status : String
deriving DecidableEq

structure AuthenticationBlock where
  oidc : String
  disabled : Bool
deriving DecidableEq

structure PoliciesBlock where
  identity_policies : List String
deriving DecidableEq

structure IdentityDoc where
  schema : String
  metadata : IdentityMetadata
  identity : IdentityBlock
  authentication : AuthenticationBlock
  policies : PoliciesBlock
deriving DecidableEq

namespace YAMLGenerator

/-- `YAMLGenerator.scim_to_yaml`: convert a SCIM user payload to the identity
document and its filename.  `scim_user.get(k, d)` is `Option.getD`;
`scim_user.get("emails") and len(...) > 0` is the `some (e :: _)` match. -/
def scim_to_yaml (schema_path today : String) (scim_user : ScimUser) :
    String × IdentityDoc :=
  let email0 := scim_user.userName.getD ""
  let email := match scim_user.emails with
    | some (e :: _) => e.value.getD email0
    | _ => email0
  let role := sanitize_field (scim_user.title.getD "user")
  let team := sanitize_field (scim_user.department.getD "general")
  let status := if scim_user.active.getD true then "active" else "deactivated"
  let nameVal := scim_user.displayName.getD email
  (generate_filename nameVal,
   { schema := schema_path
     metadata :=
       { version := "1.0.0"
         created_date := today
         description := "EntraID user " ++ nameVal ++ " provisioned via SCIM"
         entraid_object_id := scim_user.id.getD ""
         entraid_upn := scim_user.userName.getD ""
         provisioned_via_scim := true }
     identity :=
       { name := nameVal, email := email, role := role, team := team, status := status }
     authentication := { oidc := email, disabled := !(scim_user.active.getD true) }
     policies := { identity_policies := [role ++ "-policy"] } })

end YAMLGenerator

/-! ### `UserStore` (`user_store.py`)

The store state is the backing JSON file: absent, unparseable, or a parsed
JSON object (an ordered association list keyed by SCIM id; JSON objects have
unique keys, and Python `dict` assignment keeps the position of an existing
key and appends a new one).  `**extra_fields` can never contain the keys
`scim_id`/`name`/`filename`: those collide with the named parameters of
`add_user` and raise `TypeError` at the call site, so a record is faithfully
a 4-field structure. -/

namespace UserStore

structure UserRecord where
  scim_id : String
  name : String
  filename : String
  extra_fields : List (String × String)
deriving DecidableEq

/-- The backing file: missing, unparseable JSON, or parsed content. -/
inductive DataFile where
  | missing : DataFile
  | corrupt : DataFile
  | good : List (String × UserRecord) → DataFile
deriving DecidableEq

/-- `UserStore.__init__` (lines 46-61): write `{}` if the file is missing,
leave it alone otherwise. -/
def construct (f : DataFile) : DataFile :=
  match f with
  | .missing => .good []
  | f => f

/-- `UserStore._read_data` (lines 63-75): parse, returning `{}` on a missing
or unparseable file. -/
def read_data : DataFile → List (String × UserRecord)
  | .good d => d
  | _ => []

/-- `UserStore._write_data` (lines 77-95): atomically replace the backing
file with the serialised data. -/
def write_data (d : List (String × UserRecord)) : DataFile := .good d

/-- `UserStore.add_user` (lines 97-120). -/
def add_user (f : DataFile) (scim_id name filename : String)
    (extra_fields : List (String × String)) : DataFile :=
  let data := read_data f
  let r : UserRecord :=
    { scim_id := scim_id, name := name, filename := filename,
      extra_fields := extra_fields }
  write_data (if data.any (fun p => p.1 = scim_id) then
      data.map (fun p => if p.1 = scim_id then (scim_id, r) else p)
    else data ++ [(scim_id, r)])

/-- `UserStore.get_user` (lines 122-135). -/
def get_user (f : DataFile) (scim_id : String) : Option UserRecord :=
  ((read_data f).find? (fun p => p.1 = scim_id)).map (·.2)

/-- `UserStore.list_all_users` (lines 137-147). -/
def list_all_users (f : DataFile) : List UserRecord := (read_data f).map (·.2)

/-- `UserStore.user_exists` (lines 169-181). -/
def user_exists (f : DataFile) (scim_id : String) : Bool :=
  (read_data f).any (fun p => p.1 = scim_id)

/-- `UserStore.delete_user` (lines 149-167): only writes when the id was
present. -/
def delete_user (f : DataFile) (scim_id : String) : DataFile × Bool :=
  if (read_data f).any (fun p => p.1 = scim_id) then
    (write_data ((read_data f).filter (fun p => p.1 ≠ scim_id)), true)
  else (f, false)

theorem find?_upsert_map (k : String) (r : UserRecord) :
    ∀ (d : List (String × UserRecord)),
      (d.map (fun p => if p.1 = k then (k, r) else p)).find? (fun p => p.1 = k) =
        if d.any (fun p => p.1 = k) then some (k, r) else none
  | [] => rfl
  | a :: t => by
    rw [List.map_cons]
    by_cases ha : a.1 = k
    · rw [List.find?_cons_of_pos _ (by simp [ha]), List.any_cons]
      simp [ha]
    · rw [List.find?_cons_of_neg _ (by simp [ha]), find?_upsert_map k r t,
        List.any_cons]
      have ha2 : (decide (a.1 = k)) = false := by simp [ha]
      rw [ha2, Bool.false_or]

theorem find?_append_self (k : String) (r : UserRecord)
    (d : List (String × UserRecord)) (h : d.any (fun p => p.1 = k) = false) :
    (d ++ [(k, r)]).find? (fun p => p.1 = k) = some (k, r) := by
  rw [List.find?_append]
  have h2 : d.find? (fun p => p.1 = k) = none := by
    rw [List.find?_eq_none]
    intro x hx
    rw [List.any_eq_false] at h
    exact h x hx
  rw [h2, List.find?_cons_of_pos _ (by simp)]
  rfl

end UserStore

/-! ### `GroupHandler` (`group_handler.py`)

A directory of group files is a list of `(filename, parsed document)` pairs
in directory-listing order.  Only parseable documents that are mappings with
a `name` key are modelled: they are the only files `_load_all_groups` admits,
and the claims under scrutiny quantify over directory states of parseable
group documents.  An absent `entraid_human_identities` key behaves exactly
like `[]` through `data.get('entraid_human_identities', [])`, so the member
list is a plain list field.  A real directory never contains two files of
the same name; `WF` states that invariant where a proof needs it. -/

namespace GroupHandler

/-- Every group-document field other than `name` and
`entraid_human_identities`.  (`type` is a Lean keyword, hence `gtype`.) -/
structure GroupRest where
  contact : String
  gtype : String
  human_identities : List String
  application_identities : List String
  sub_groups : List String
  identity_group_policies : List String
deriving DecidableEq

structure GroupDoc where
  name : String
  entraid_human_identities : List String
  rest : GroupRest
deriving DecidableEq

/-- A directory state: `(filename, parsed document)` in listing order. -/
abbrev Dir := List (String × GroupDoc)

/-- Filenames in one directory are distinct. -/
def WF (dir : Dir) : Prop := (dir.map Prod.fst).Nodup

/-- `GroupHandler._load_all_groups` (lines 128-152): every `*.yaml` file
except `example.yaml`; parse failures and nameless documents are outside the
model (see the section comment). -/
def load_all_groups (dir : Dir) : Dir :=
  dir.filter (fun p => p.1 ≠ "example.yaml")

/-- `GroupHandler._find_group_file` (lines 154-170): first loaded document
whose `name` equals the requested display name. -/
def find_group_file (dir : Dir) (display_name : String) : Option String :=
  ((load_all_groups dir).find? (fun p => p.2.name = display_name)).map (·.1)

/-- `open(file_path)` + `yaml.safe_load`: the document stored at a path. -/
def getDoc (dir : Dir) (file_path : String) : Option GroupDoc :=
  (dir.find? (fun p => p.1 = file_path)).map (·.2)

/-- `yaml.dump` to `file_path`: replace the document stored at a path. -/
def writeDoc (dir : Dir) (file_path : String) (d : GroupDoc) : Dir :=
  dir.map (fun p => if p.1 = file_path then (file_path, d) else p)

/-- `GroupHandler._add_user_to_group` (lines 172-210): append + `sort()` when
the user is missing from the list; `False` (no write) when already present
or the file cannot be read. -/
def add_user_to_group (dir : Dir) (file_path display_name : String) :
    Dir × Bool :=
  match getDoc dir file_path with
  | none => (dir, false)
  | some data =>
    if display_name ∈ data.entraid_human_identities then (dir, false)
    else
      (writeDoc dir file_path
        { data with entraid_human_identities :=
            sortStrings (data.entraid_human_identities ++ [display_name]) },
       true)

/-- `GroupHandler._remove_user_from_group_file` (lines 254-289):
`list.remove` deletes the first occurrence only, and — unlike
`_add_user_to_group` and `remove_user_from_all_groups` — this helper does
*not* re-sort. -/
def remove_user_from_group_file (dir : Dir) (file_path display_name : String) :
    Dir × Bool :=
  match getDoc dir file_path with
  | none => (dir, false)
  | some data =>
    if display_name ∈ data.entraid_human_identities then
      (writeDoc dir file_path
        { data with entraid_human_identities :=
            data.entraid_human_identities.erase display_name },
       true)
    else (dir, false)

/-- The non-membership fields of a freshly created group document
(`_create_group_file` lines 232-242). -/
def defaultRest : GroupRest :=
  { contact := "scim-provisioning@example.com"
    gtype := "internal"
    human_identities := []
    application_identities := []
    sub_groups := []
    identity_group_policies := [] }

/-- The filename `_create_group_file` uses for group `group_name`
(line 224-226). -/
def fnameFor (group_name : String) : String :=
  "identity_group_" ++ sanitize_group_name group_name ++ ".yaml"

/-- The fresh document `_create_group_file` writes (lines 232-242); note
`[first_member] if first_member else []` makes an empty display name produce
an *empty* member list. -/
def newGroupDoc (group_name first_member : String) : GroupDoc :=
  { name := group_name
    entraid_human_identities := if first_member = "" then [] else [first_member]
    rest := defaultRest }

/-- `GroupHandler._create_group_file` (lines 212-252): refuse when the target
filename already exists. -/
def create_group_file (dir : Dir) (group_name first_member : String) :
    Dir × Option String :=
  if (dir.map Prod.fst).contains (fnameFor group_name) then
    (dir, none)
  else
    (dir ++ [(fnameFor group_name, newGroupDoc group_name first_member)],
     some (fnameFor group_name))

/-- One iteration of the `groups_to_join` loop of `sync_user_groups`
(lines 88-98); `some path` when the file was recorded as modified. -/
def joinStep (display_name : String) (dir : Dir) (group_name : String) :
    Dir × Option String :=
  match find_group_file dir group_name with
  | none =>
    match create_group_file dir group_name display_name with
    | (dir2, some f) => (dir2, some ("identity_groups/" ++ f))
    | (dir2, none) => (dir2, none)
  | some f =>
    match add_user_to_group dir f display_name with
    | (dir2, true) => (dir2, some ("identity_groups/" ++ f))
    | (dir2, false) => (dir2, none)

/-- One iteration of the `groups_to_leave` loop of `sync_user_groups`
(lines 100-104). -/
def leaveStep (display_name : String) (dir : Dir) (group_name : String) :
    Dir × Option String :=
  match find_group_file dir group_name with
  | none => (dir, none)
  | some f =>
    match remove_user_from_group_file dir f display_name with
    | (dir2, true) => (dir2, some ("identity_groups/" ++ f))
    | (dir2, false) => (dir2, none)

/-- Run a loop body over a work list, threading the directory state and
collecting the recorded paths. -/
def processSteps (step : Dir → String → Dir × Option String) :
    Dir → List String → Dir × List String
  | dir, [] => (dir, [])
  | dir, g :: gs =>
    match step dir g with
    | (dir2, m) =>
      match processSteps step dir2 gs with
      | (dir3, ms) => (dir3, m.toList ++ ms)

/-- The group names whose member list already contains the user
(`sync_user_groups` lines 76-79).  The source collects them into a Python
`set`; only membership and one iteration are ever used, and the model fixes
the iteration order to document order (deduplicated below). -/
def current_memberships (dir : Dir) (display_name : String) : List String :=
  ((load_all_groups dir).filter
    (fun p => display_name ∈ p.2.entraid_human_identities)).map (fun p => p.2.name)

/-- `target_groups = set(group_names)` (line 70), as a deduplicated list. -/
def targetsOf (group_names : List String) : List String := group_names.dedup

/-- `current_memberships` as a set (lines 76-79), as a deduplicated list. -/
def currentOf (dir : Dir) (display_name : String) : List String :=
  (current_memberships dir display_name).dedup

/-- `groups_to_join = target_groups - current_memberships` (line 82). -/
def toJoin (dir : Dir) (display_name : String) (group_names : List String) :
    List String :=
  (targetsOf group_names).filter (fun t => t ∉ currentOf dir display_name)

/-- `groups_to_leave = current_memberships - target_groups` (line 85). -/
def toLeave (dir : Dir) (display_name : String) (group_names : List String) :
    List String :=
  (currentOf dir display_name).filter (fun c => c ∉ targetsOf group_names)

/-- `GroupHandler.sync_user_groups` (lines 53-106).  `target_groups` and the
set differences are Python sets; the model iterates them in first-occurrence
order.  The returned path list is `sorted(list(set(modified_files)))`. -/
def sync_user_groups (dir : Dir) (display_name : String)
    (group_names : List String) : Dir × List String :=
  match processSteps (joinStep display_name) dir (toJoin dir display_name group_names) with
  | (dir1, m1) =>
    match processSteps (leaveStep display_name) dir1
        (toLeave dir display_name group_names) with
    | (dir2, m2) => (dir2, sortStrings (m1 ++ m2).dedup)

/-- One iteration of the loop of `remove_user_from_all_groups`
(lines 339-358): the membership test and the written list use the
*snapshot* entry loaded before the loop started; removal is `list.remove`
followed by `sort()`. -/
def removeAllStep (user_name : String) (dir : Dir) (entry : String × GroupDoc) :
    Dir × Option String :=
  if user_name ∈ entry.2.entraid_human_identities then
    (writeDoc dir entry.1
      { entry.2 with entraid_human_identities :=
          sortStrings (entry.2.entraid_human_identities.erase user_name) },
     some ("identity_groups/" ++ entry.1))
  else (dir, none)

/-- The loop of `remove_user_from_all_groups` over the loaded snapshot. -/
def processRemoveAll (user_name : String) :
    Dir → List (String × GroupDoc) → Dir × List String
  | dir, [] => (dir, [])
  | dir, e :: es =>
    match removeAllStep user_name dir e with
    | (dir2, m) =>
      match processRemoveAll user_name dir2 es with
      | (dir3, ms) => (dir3, m.toList ++ ms)

/-- `GroupHandler.remove_user_from_all_groups` (lines 319-363); the returned
path list is in loop order (not deduplicated or re-sorted). -/
def remove_user_from_all_groups (dir : Dir) (user_name : String) :
    Dir × List String :=
  processRemoveAll user_name dir (load_all_groups dir)

end GroupHandler

/-! ### Generic list lemmas -/

theorem find?_eq_head?_filter {α : Type} (q : α → Bool) :
    ∀ l : List α, l.find? q = (l.filter q).head?
  | [] => rfl
  | a :: t => by
    by_cases ha : q a
    · rw [List.find?_cons, ha, List.filter_cons, if_pos ha, List.head?_cons]
    · rw [List.find?_cons, Bool.eq_false_iff.mpr ha, List.filter_cons,
        if_neg (by simpa using ha), find?_eq_head?_filter q t]

theorem mem_of_head?_eq {α : Type} {l : List α} {a : α} (h : l.head? = some a) :
    a ∈ l := by
  cases l with
  | nil => simp at h
  | cons b t =>
    rw [List.head?_cons, Option.some.injEq] at h
    simp [h.symm]

theorem find?_map_of_pres {α : Type} {φ : α → α} {q : α → Bool} :
    ∀ {l : List α}, (∀ a ∈ l, q (φ a) = q a) →
      (l.map φ).find? q = (l.find? q).map φ
  | [], _ => rfl
  | a :: t, h => by
    have hq := h a (List.mem_cons_self a t)
    by_cases ha : q a = true
    · rw [List.map_cons, List.find?_cons_of_pos _ (by rw [hq, ha]),
        List.find?_cons_of_pos _ ha]
      rfl
    · rw [List.map_cons, List.find?_cons_of_neg _ (by rw [hq]; exact ha),
        List.find?_cons_of_neg _ ha]
      exact find?_map_of_pres (fun b hb => h b (List.mem_cons_of_mem a hb))

theorem filter_map_of_pres {α : Type} {φ : α → α} {q : α → Bool} :
    ∀ {l : List α}, (∀ a ∈ l, q (φ a) = q a) →
      (l.map φ).filter q = (l.filter q).map φ
  | [], _ => rfl
  | a :: t, h => by
    rw [List.map_cons, List.filter_cons, List.filter_cons,
      h a (List.mem_cons_self a t)]
    by_cases ha : q a
    · rw [if_pos ha, if_pos ha, List.map_cons,
        filter_map_of_pres (fun b hb => h b (List.mem_cons_of_mem a hb))]
    · rw [if_neg ha, if_neg ha,
        filter_map_of_pres (fun b hb => h b (List.mem_cons_of_mem a hb))]

namespace GroupHandler

/-- The filenames present in a directory (what `Path.exists` can see). -/
def files (dir : Dir) : List String := dir.map Prod.fst

/-- The documents of a given group name among the loaded files, in listing
order. -/
def entriesNamed (dir : Dir) (c : String) : Dir :=
  (load_all_groups dir).filter (fun p => p.2.name = c)

/-- The names of all loaded documents, in listing order. -/
def namesOf (dir : Dir) : List String := (load_all_groups dir).map (fun p => p.2.name)

/-- Some loaded document of group `c` lists `n` as a member. -/
def hasMember (dir : Dir) (c n : String) : Prop :=
  ∃ p ∈ entriesNamed dir c, n ∈ p.2.entraid_human_identities

/-- Every document (including an `example.yaml` one) lists `n` at most once. -/
def countLe1 (dir : Dir) (n : String) : Prop :=
  ∀ p ∈ dir, p.2.entraid_human_identities.count n ≤ 1

theorem find_group_file_eq (dir : Dir) (c : String) :
    find_group_file dir c = ((entriesNamed dir c).head?).map (·.1) := by
  unfold find_group_file entriesNamed
  rw [find?_eq_head?_filter]

theorem find_group_file_eq_none_iff {dir : Dir} {c : String} :
    find_group_file dir c = none ↔ entriesNamed dir c = [] := by
  rw [find_group_file_eq]
  cases he : entriesNamed dir c with
  | nil => simp
  | cons a t => simp

theorem mem_load_all_groups {dir : Dir} {p : String × GroupDoc} :
    p ∈ load_all_groups dir ↔ p ∈ dir ∧ p.1 ≠ "example.yaml" := by
  unfold load_all_groups
  rw [List.mem_filter]
  simp

theorem mem_entriesNamed {dir : Dir} {c : String} {p : String × GroupDoc} :
    p ∈ entriesNamed dir c ↔ p ∈ load_all_groups dir ∧ p.2.name = c := by
  unfold entriesNamed
  rw [List.mem_filter]
  simp

/-! ### `writeDoc`, `getDoc`, `WF` basics -/

theorem files_writeDoc (dir : Dir) (f : String) (d : GroupDoc) :
    files (writeDoc dir f d) = files dir := by
  unfold files writeDoc
  rw [List.map_map]
  refine List.map_congr_left (fun p _ => ?_)
  by_cases hp : p.1 = f
  · simp [hp]
  · simp [hp]

theorem WF_writeDoc {dir : Dir} (f : String) (d : GroupDoc) (h : WF dir) :
    WF (writeDoc dir f d) := by
  unfold WF at *
  have := files_writeDoc dir f d
  unfold files at this
  rw [this]
  exact h

theorem eq_of_fst_eq_of_WF {dir : Dir} (hwf : WF dir) :
    ∀ {p q : String × GroupDoc}, p ∈ dir → q ∈ dir → p.1 = q.1 → p = q := by
  unfold WF at hwf
  induction dir with
  | nil => intro p q hp _ _; simp at hp
  | cons a t ih =>
    rw [List.map_cons, List.nodup_cons] at hwf
    intro p q hp hq hpq
    rcases List.mem_cons.mp hp with rfl | hp2
    · rcases List.mem_cons.mp hq with rfl | hq2
      · rfl
      · exact absurd (hpq ▸ List.mem_map_of_mem Prod.fst hq2) hwf.1
    · rcases List.mem_cons.mp hq with rfl | hq2
      · exact absurd (hpq ▸ List.mem_map_of_mem Prod.fst hp2) hwf.1
      · exact ih hwf.2 hp2 hq2 hpq

theorem getDoc_eq_of_mem {dir : Dir} {p : String × GroupDoc} (hwf : WF dir)
    (hp : p ∈ dir) : getDoc dir p.1 = some p.2 := by
  unfold getDoc
  have hfp : dir.find? (fun q => q.1 = p.1) = some p := by
    rcases hfind : dir.find? (fun q => q.1 = p.1) with _ | q
    · rw [List.find?_eq_none] at hfind
      exact absurd (rfl : p.1 = p.1) (by simpa using hfind p hp)
    · have hq1 : q.1 = p.1 := by simpa using List.find?_some hfind
      have heq : q = p :=
        eq_of_fst_eq_of_WF hwf (List.mem_of_find?_eq_some hfind) hp hq1
      exact heq ▸ hfind
  rw [hfp]
  rfl

theorem mem_writeDoc_of_mem {dir : Dir} {p : String × GroupDoc} {f : String}
    {d : GroupDoc} (hp : p ∈ dir) (hf : p.1 ≠ f) : p ∈ writeDoc dir f d := by
  unfold writeDoc
  refine List.mem_map.mpr ⟨p, hp, ?_⟩
  simp [hf]

theorem self_mem_writeDoc {dir : Dir} {p : String × GroupDoc}
    (hp : p ∈ dir) (d : GroupDoc) : (p.1, d) ∈ writeDoc dir p.1 d := by
  unfold writeDoc
  refine List.mem_map.mpr ⟨p, hp, ?_⟩
  simp

theorem load_writeDoc (dir : Dir) (f : String) (d : GroupDoc) :
    load_all_groups (writeDoc dir f d) = writeDoc (load_all_groups dir) f d := by
  unfold load_all_groups writeDoc
  refine filter_map_of_pres (fun p _ => ?_)
  by_cases hp : p.1 = f
  · simp [hp]
  · simp [hp]

/-- The central rewrite for an in-place file update that keeps the stored
document's `name`: the loaded view of every group name is transformed
entry-wise. -/
theorem entriesNamed_writeDoc {dir : Dir} {f : String} {d0 : GroupDoc}
    (d : GroupDoc) (hwf : WF dir) (hp : (f, d0) ∈ dir)
    (hname : d.name = d0.name) (c : String) :
    entriesNamed (writeDoc dir f d) c =
      (entriesNamed dir c).map (fun q => if q.1 = f then (f, d) else q) := by
  have hpt : ∀ q ∈ load_all_groups dir,
      ((fun q => if q.1 = f then (f, d) else q) q).2.name = q.2.name := by
    intro q hq
    by_cases hqf : q.1 = f
    · have : q = (f, d0) :=
        eq_of_fst_eq_of_WF hwf (mem_load_all_groups.mp hq).1 hp hqf
      simp [hqf, this, hname]
    · simp [hqf]
  unfold entriesNamed
  rw [load_writeDoc]
  unfold writeDoc
  refine filter_map_of_pres (fun q hq => ?_)
  rw [hpt q hq]

theorem entriesNamed_writeDoc_of_ne {dir : Dir} {f : String} {d0 : GroupDoc}
    (d : GroupDoc) (hwf : WF dir) (hp : (f, d0) ∈ dir)
    (hname : d.name = d0.name) {c : String} (hc : c ≠ d0.name) :
    entriesNamed (writeDoc dir f d) c = entriesNamed dir c := by
  rw [entriesNamed_writeDoc d hwf hp hname c]
  refine map_eq_self_of_eq (fun q hq => ?_)
  rw [if_neg]
  intro hqf
  have heqd : q = (f, d0) :=
    eq_of_fst_eq_of_WF hwf (mem_load_all_groups.mp (mem_entriesNamed.mp hq).1).1 hp hqf
  have h2 : q.2.name = c := (mem_entriesNamed.mp hq).2
  rw [heqd] at h2
  exact hc h2.symm

theorem namesOf_writeDoc {dir : Dir} {f : String} {d0 : GroupDoc}
    (d : GroupDoc) (hwf : WF dir) (hp : (f, d0) ∈ dir)
    (hname : d.name = d0.name) :
    namesOf (writeDoc dir f d) = namesOf dir := by
  unfold namesOf
  rw [load_writeDoc]
  unfold writeDoc
  rw [List.map_map]
  refine List.map_congr_left (fun q hq => ?_)
  by_cases hqf : q.1 = f
  · have : q = (f, d0) :=
      eq_of_fst_eq_of_WF hwf (mem_load_all_groups.mp hq).1 hp hqf
    simp [hqf, hname, this]
  · simp [hqf]

theorem countLe1_writeDoc {dir : Dir} {f : String} {d : GroupDoc} {n : String}
    (h : countLe1 dir n) (hd : d.entraid_human_identities.count n ≤ 1) :
    countLe1 (writeDoc dir f d) n := by
  intro p hp
  unfold writeDoc at hp
  obtain ⟨q, hq, hφ⟩ := List.mem_map.mp hp
  by_cases hqf : q.1 = f
  · rw [if_pos hqf] at hφ
    rw [← hφ]
    exact hd
  · rw [if_neg hqf] at hφ
    rw [← hφ]
    exact h q hq

/-! ### Lemmas about appending a created file -/

theorem fnameFor_ne_example (t : String) : fnameFor t ≠ "example.yaml" := by
  intro hc
  have hlen := congrArg String.length hc
  rw [fnameFor, String.length_append, String.length_append] at hlen
  have h1 : ("identity_group_" : String).length = 15 := rfl
  have h2 : (".yaml" : String).length = 5 := rfl
  have h3 : ("example.yaml" : String).length = 12 := rfl
  omega

theorem load_append_of_ne {dir : Dir} {f : String} {d : GroupDoc}
    (hf : f ≠ "example.yaml") :
    load_all_groups (dir ++ [(f, d)]) = load_all_groups dir ++ [(f, d)] := by
  unfold load_all_groups
  rw [List.filter_append]
  congr 1
  rw [List.filter_cons]
  simp [hf]

theorem entriesNamed_append_of_ne {dir : Dir} {f : String} {d : GroupDoc}
    (hf : f ≠ "example.yaml") (c : String) :
    entriesNamed (dir ++ [(f, d)]) c =
      entriesNamed dir c ++ (if d.name = c then [(f, d)] else []) := by
  unfold entriesNamed
  rw [load_append_of_ne hf, List.filter_append]
  congr 1
  rw [List.filter_cons]
  by_cases hn : d.name = c
  · simp [hn]
  · simp [hn]

theorem namesOf_append_of_ne {dir : Dir} {f : String} {d : GroupDoc}
    (hf : f ≠ "example.yaml") :
    namesOf (dir ++ [(f, d)]) = namesOf dir ++ [d.name] := by
  unfold namesOf
  rw [load_append_of_ne hf, List.map_append]
  rfl

theorem files_append (dir : Dir) (e : String × GroupDoc) :
    files (dir ++ [e]) = files dir ++ [e.1] := by
  unfold files
  rw [List.map_append]
  rfl

theorem WF_append {dir : Dir} {e : String × GroupDoc} (hwf : WF dir)
    (he : e.1 ∉ files dir) : WF (dir ++ [e]) := by
  unfold WF
  rw [List.map_append]
  rw [List.nodup_append]
  refine ⟨hwf, List.nodup_singleton _, ?_⟩
  intro a ha hb
  simp only [List.map_cons, List.map_nil, List.mem_singleton] at hb
  exact he (hb ▸ ha)

theorem countLe1_append {dir : Dir} {e : String × GroupDoc} {n : String}
    (h : countLe1 dir n) (he : e.2.entraid_human_identities.count n ≤ 1) :
    countLe1 (dir ++ [e]) n := by
  intro p hp
  rcases List.mem_append.mp hp with hp2 | hp2
  · exact h p hp2
  · rw [List.mem_singleton] at hp2
    rw [hp2]
    exact he

/-! ### Case analyses of the loop bodies -/

theorem mem_dir_of_head_entriesNamed {dir : Dir} {c : String}
    {p : String × GroupDoc} (hhead : (entriesNamed dir c).head? = some p) :
    p ∈ dir ∧ p.1 ≠ "example.yaml" ∧ p.2.name = c := by
  have hp := mem_entriesNamed.mp (mem_of_head?_eq hhead)
  have hp2 := mem_load_all_groups.mp hp.1
  exact ⟨hp2.1, hp2.2, hp.2⟩

theorem joinStep_of_member {dir : Dir} {n t : String} {p : String × GroupDoc}
    (hwf : WF dir) (hhead : (entriesNamed dir t).head? = some p)
    (hmem : n ∈ p.2.entraid_human_identities) :
    joinStep n dir t = (dir, none) := by
  obtain ⟨hpdir, _, _⟩ := mem_dir_of_head_entriesNamed hhead
  have hfind : find_group_file dir t = some p.1 := by
    rw [find_group_file_eq, hhead]
    rfl
  have hget : getDoc dir p.1 = some p.2 := getDoc_eq_of_mem hwf hpdir
  unfold joinStep add_user_to_group
  rw [hfind]
  simp [hget, hmem]

theorem joinStep_of_add {dir : Dir} {n t : String} {p : String × GroupDoc}
    (hwf : WF dir) (hhead : (entriesNamed dir t).head? = some p)
    (hmem : n ∉ p.2.entraid_human_identities) :
    joinStep n dir t =
      (writeDoc dir p.1
        { p.2 with entraid_human_identities :=
            sortStrings (p.2.entraid_human_identities ++ [n]) },
       some ("identity_groups/" ++ p.1)) := by
  obtain ⟨hpdir, _, _⟩ := mem_dir_of_head_entriesNamed hhead
  have hfind : find_group_file dir t = some p.1 := by
    rw [find_group_file_eq, hhead]
    rfl
  have hget : getDoc dir p.1 = some p.2 := getDoc_eq_of_mem hwf hpdir
  unfold joinStep add_user_to_group
  rw [hfind]
  simp [hget, hmem]

theorem joinStep_of_create_fail {dir : Dir} {n t : String}
    (hnone : entriesNamed dir t = []) (hex : fnameFor t ∈ files dir) :
    joinStep n dir t = (dir, none) := by
  have hfind : find_group_file dir t = none := find_group_file_eq_none_iff.mpr hnone
  have hex2 : (List.map Prod.fst dir).contains (fnameFor t) = true :=
    List.elem_iff.mpr hex
  unfold joinStep create_group_file
  rw [hfind, if_pos hex2]

theorem joinStep_of_create {dir : Dir} {n t : String}
    (hnone : entriesNamed dir t = []) (hex : fnameFor t ∉ files dir) :
    joinStep n dir t =
      (dir ++ [(fnameFor t, newGroupDoc t n)],
       some ("identity_groups/" ++ fnameFor t)) := by
  have hfind : find_group_file dir t = none := find_group_file_eq_none_iff.mpr hnone
  have hex2 : ¬ (List.map Prod.fst dir).contains (fnameFor t) = true :=
    fun hc => hex (List.elem_iff.mp hc)
  unfold joinStep create_group_file
  rw [hfind, if_neg hex2]

theorem leaveStep_of_none {dir : Dir} {n t : String}
    (hnone : entriesNamed dir t = []) : leaveStep n dir t = (dir, none) := by
  have hfind : find_group_file dir t = none := find_group_file_eq_none_iff.mpr hnone
  unfold leaveStep
  rw [hfind]

theorem leaveStep_of_member {dir : Dir} {n t : String} {p : String × GroupDoc}
    (hwf : WF dir) (hhead : (entriesNamed dir t).head? = some p)
    (hmem : n ∈ p.2.entraid_human_identities) :
    leaveStep n dir t =
      (writeDoc dir p.1
        { p.2 with entraid_human_identities :=
            p.2.entraid_human_identities.erase n },
       some ("identity_groups/" ++ p.1)) := by
  obtain ⟨hpdir, _, _⟩ := mem_dir_of_head_entriesNamed hhead
  have hfind : find_group_file dir t = some p.1 := by
    rw [find_group_file_eq, hhead]
    rfl
  have hget : getDoc dir p.1 = some p.2 := getDoc_eq_of_mem hwf hpdir
  unfold leaveStep remove_user_from_group_file
  rw [hfind]
  simp [hget, hmem]

theorem leaveStep_of_nonmember {dir : Dir} {n t : String} {p : String × GroupDoc}
    (hwf : WF dir) (hhead : (entriesNamed dir t).head? = some p)
    (hmem : n ∉ p.2.entraid_human_identities) :
    leaveStep n dir t = (dir, none) := by
  obtain ⟨hpdir, _, _⟩ := mem_dir_of_head_entriesNamed hhead
  have hfind : find_group_file dir t = some p.1 := by
    rw [find_group_file_eq, hhead]
    rfl
  have hget : getDoc dir p.1 = some p.2 := getDoc_eq_of_mem hwf hpdir
  unfold leaveStep remove_user_from_group_file
  rw [hfind]
  simp [hget, hmem]

/-- The four possible outcomes of one join iteration. -/
theorem joinStep_cases {dir : Dir} (n t : String) (hwf : WF dir) :
    (∃ p, (entriesNamed dir t).head? = some p ∧
      n ∈ p.2.entraid_human_identities ∧ joinStep n dir t = (dir, none)) ∨
    (∃ p, (entriesNamed dir t).head? = some p ∧
      n ∉ p.2.entraid_human_identities ∧
      joinStep n dir t =
        (writeDoc dir p.1
          { p.2 with entraid_human_identities :=
              sortStrings (p.2.entraid_human_identities ++ [n]) },
         some ("identity_groups/" ++ p.1))) ∨
    (entriesNamed dir t = [] ∧ fnameFor t ∈ files dir ∧
      joinStep n dir t = (dir, none)) ∨
    (entriesNamed dir t = [] ∧ fnameFor t ∉ files dir ∧
      joinStep n dir t =
        (dir ++ [(fnameFor t, newGroupDoc t n)],
         some ("identity_groups/" ++ fnameFor t))) := by
  cases hhead : (entriesNamed dir t).head? with
  | none =>
    have hnil : entriesNamed dir t = [] := by
      cases he : entriesNamed dir t with
      | nil => rfl
      | cons a l => rw [he, List.head?_cons] at hhead; exact absurd hhead (by simp)
    by_cases hex : fnameFor t ∈ files dir
    · exact Or.inr (Or.inr (Or.inl ⟨hnil, hex, joinStep_of_create_fail hnil hex⟩))
    · exact Or.inr (Or.inr (Or.inr ⟨hnil, hex, joinStep_of_create hnil hex⟩))
  | some p =>
    by_cases hmem : n ∈ p.2.entraid_human_identities
    · exact Or.inl ⟨p, rfl, hmem, joinStep_of_member hwf hhead hmem⟩
    · exact Or.inr (Or.inl ⟨p, rfl, hmem, joinStep_of_add hwf hhead hmem⟩)

/-- The three possible outcomes of one leave iteration. -/
theorem leaveStep_cases {dir : Dir} (n t : String) (hwf : WF dir) :
    (entriesNamed dir t = [] ∧ leaveStep n dir t = (dir, none)) ∨
    (∃ p, (entriesNamed dir t).head? = some p ∧
      n ∈ p.2.entraid_human_identities ∧
      leaveStep n dir t =
        (writeDoc dir p.1
          { p.2 with entraid_human_identities :=
              p.2.entraid_human_identities.erase n },
         some ("identity_groups/" ++ p.1))) ∨
    (∃ p, (entriesNamed dir t).head? = some p ∧
      n ∉ p.2.entraid_human_identities ∧ leaveStep n dir t = (dir, none)) := by
  cases hhead : (entriesNamed dir t).head? with
  | none =>
    have hnil : entriesNamed dir t = [] := by
      cases he : entriesNamed dir t with
      | nil => rfl
      | cons a l => rw [he, List.head?_cons] at hhead; exact absurd hhead (by simp)
    exact Or.inl ⟨hnil, leaveStep_of_none hnil⟩
  | some p =>
    by_cases hmem : n ∈ p.2.entraid_human_identities
    · exact Or.inr (Or.inl ⟨p, rfl, hmem, leaveStep_of_member hwf hhead hmem⟩)
    · exact Or.inr (Or.inr ⟨p, rfl, hmem, leaveStep_of_nonmember hwf hhead hmem⟩)

/-! ### Stability predicates

`joinDone dir n t` says a join iteration for `t` would record nothing:
either some loaded document of group `t` already lists `n`, or no document
of group `t` exists but the filename a creation would use is taken.
`leaveDone dir n c` says a leave iteration for `c` would record nothing:
the document `_find_group_file` picks (the first of group `c`) does not
list `n`. -/

def joinDone (dir : Dir) (n t : String) : Prop :=
  hasMember dir t n ∨ (entriesNamed dir t = [] ∧ fnameFor t ∈ files dir)

def leaveDone (dir : Dir) (n c : String) : Prop :=
  ∀ p, (entriesNamed dir c).head? = some p → n ∉ p.2.entraid_human_identities

theorem joinDone_transfer {dirA dirB : Dir} {n t : String}
    (hE : entriesNamed dirB t = entriesNamed dirA t)
    (hF : ∀ f ∈ files dirA, f ∈ files dirB)
    (h : joinDone dirA n t) : joinDone dirB n t := by
  rcases h with ⟨p, hp, hmem⟩ | ⟨h1, h2⟩
  · exact Or.inl ⟨p, by rw [hE]; exact hp, hmem⟩
  · exact Or.inr ⟨by rw [hE]; exact h1, hF _ h2⟩

theorem leaveDone_transfer {dirA dirB : Dir} {n c : String}
    (hE : entriesNamed dirB c = entriesNamed dirA c)
    (h : leaveDone dirA n c) : leaveDone dirB n c := by
  intro p hp
  rw [hE] at hp
  exact h p hp

theorem leaveDone_of_not_hasMember {dir : Dir} {n c : String}
    (h : ¬ hasMember dir c n) : leaveDone dir n c := by
  intro p hp hmem
  exact h ⟨p, mem_of_head?_eq hp, hmem⟩

/-! ### Preservation through one join/leave iteration -/

theorem joinStep_basic {dir : Dir} (n t : String) (hwf : WF dir)
    (hcount : countLe1 dir n) :
    WF (joinStep n dir t).1 ∧ countLe1 (joinStep n dir t).1 n ∧
    (∀ c, c ≠ t → entriesNamed (joinStep n dir t).1 c = entriesNamed dir c) ∧
    (∀ f ∈ files dir, f ∈ files (joinStep n dir t).1) := by
  rcases joinStep_cases n t hwf with
    ⟨p, hhead, hmem, heq⟩ | ⟨p, hhead, hmem, heq⟩ |
    ⟨hnil, hex, heq⟩ | ⟨hnil, hex, heq⟩
  · rw [heq]; exact ⟨hwf, hcount, fun c _ => rfl, fun f hf => hf⟩
  · obtain ⟨hpdir, hpex, hpname⟩ := mem_dir_of_head_entriesNamed hhead
    rw [heq]
    dsimp only
    refine ⟨WF_writeDoc _ _ hwf, ?_, ?_, ?_⟩
    · refine countLe1_writeDoc hcount ?_
      show (sortStrings (p.2.entraid_human_identities ++ [n])).count n ≤ 1
      rw [count_sortStrings, List.count_append, List.count_eq_zero.mpr hmem,
        List.count_singleton]
      simp
    · intro c hc
      exact entriesNamed_writeDoc_of_ne
        { p.2 with entraid_human_identities :=
            sortStrings (p.2.entraid_human_identities ++ [n]) }
        hwf hpdir rfl (by rw [hpname]; exact hc)
    · intro f hf
      rw [files_writeDoc]
      exact hf
  · rw [heq]; exact ⟨hwf, hcount, fun c _ => rfl, fun f hf => hf⟩
  · rw [heq]
    dsimp only
    refine ⟨WF_append hwf hex, ?_, ?_, ?_⟩
    · refine countLe1_append hcount ?_
      show ((newGroupDoc t n).entraid_human_identities).count n ≤ 1
      unfold newGroupDoc
      by_cases hn : n = ""
      · simp [hn]
      · simp only [hn, if_false]
        rw [List.count_singleton]
        simp
    · intro c hc
      rw [entriesNamed_append_of_ne (fnameFor_ne_example t) c]
      have hname : (newGroupDoc t n).name = t := rfl
      rw [hname, if_neg (fun h => hc h.symm), List.append_nil]
    · intro f hf
      rw [files_append]
      exact List.mem_append_left _ hf

theorem leaveStep_basic {dir : Dir} (n t : String) (hwf : WF dir)
    (hcount : countLe1 dir n) :
    WF (leaveStep n dir t).1 ∧ countLe1 (leaveStep n dir t).1 n ∧
    (∀ c, c ≠ t → entriesNamed (leaveStep n dir t).1 c = entriesNamed dir c) ∧
    files (leaveStep n dir t).1 = files dir := by
  rcases leaveStep_cases n t hwf with
    ⟨hnil, heq⟩ | ⟨p, hhead, hmem, heq⟩ | ⟨p, hhead, hmem, heq⟩
  · rw [heq]; exact ⟨hwf, hcount, fun c _ => rfl, rfl⟩
  · obtain ⟨hpdir, hpex, hpname⟩ := mem_dir_of_head_entriesNamed hhead
    rw [heq]
    dsimp only
    refine ⟨WF_writeDoc _ _ hwf, ?_, ?_, files_writeDoc _ _ _⟩
    · refine countLe1_writeDoc hcount ?_
      show (p.2.entraid_human_identities.erase n).count n ≤ 1
      rw [List.count_erase_self]
      have h1 := hcount p hpdir
      omega
    · intro c hc
      exact entriesNamed_writeDoc_of_ne
        { p.2 with entraid_human_identities :=
            p.2.entraid_human_identities.erase n }
        hwf hpdir rfl (by rw [hpname]; exact hc)
  · rw [heq]; exact ⟨hwf, hcount, fun c _ => rfl, rfl⟩

theorem joinStep_establishes {dir : Dir} (n t : String) (hwf : WF dir)
    (hn : n ≠ "") : joinDone (joinStep n dir t).1 n t := by
  rcases joinStep_cases n t hwf with
    ⟨p, hhead, hmem, heq⟩ | ⟨p, hhead, hmem, heq⟩ |
    ⟨hnil, hex, heq⟩ | ⟨hnil, hex, heq⟩
  · rw [heq]
    exact Or.inl ⟨p, mem_of_head?_eq hhead, hmem⟩
  · obtain ⟨hpdir, hpex, hpname⟩ := mem_dir_of_head_entriesNamed hhead
    rw [heq]
    dsimp only
    refine Or.inl ⟨(p.1,
      { p.2 with entraid_human_identities :=
          sortStrings (p.2.entraid_human_identities ++ [n]) }), ?_, ?_⟩
    · rw [entriesNamed_writeDoc
        { p.2 with entraid_human_identities :=
            sortStrings (p.2.entraid_human_identities ++ [n]) }
        hwf hpdir rfl t]
      refine List.mem_map.mpr ⟨p, mem_of_head?_eq hhead, ?_⟩
      simp
    · show n ∈ sortStrings (p.2.entraid_human_identities ++ [n])
      rw [mem_sortStrings]
      exact List.mem_append_right _ (List.mem_singleton.mpr rfl)
  · rw [heq]
    exact Or.inr ⟨hnil, hex⟩
  · rw [heq]
    dsimp only
    refine Or.inl ⟨(fnameFor t, newGroupDoc t n), ?_, ?_⟩
    · rw [entriesNamed_append_of_ne (fnameFor_ne_example t) t, hnil]
      have hname : (newGroupDoc t n).name = t := rfl
      rw [hname, if_pos rfl]
      exact List.mem_singleton.mpr rfl
    · show n ∈ (newGroupDoc t n).entraid_human_identities
      unfold newGroupDoc
      simp [hn]

theorem leaveStep_establishes {dir : Dir} (n t : String) (hwf : WF dir)
    (hcount : countLe1 dir n) : leaveDone (leaveStep n dir t).1 n t := by
  rcases leaveStep_cases n t hwf with
    ⟨hnil, heq⟩ | ⟨p, hhead, hmem, heq⟩ | ⟨p, hhead, hmem, heq⟩
  · rw [heq]
    intro q hq
    rw [hnil] at hq
    exact absurd hq (by simp)
  · obtain ⟨hpdir, hpex, hpname⟩ := mem_dir_of_head_entriesNamed hhead
    rw [heq]
    dsimp only
    intro q hq
    rw [entriesNamed_writeDoc
      { p.2 with entraid_human_identities := p.2.entraid_human_identities.erase n }
      hwf hpdir rfl t, List.head?_map, hhead] at hq
    simp only [Option.map_some', Option.some.injEq, if_true] at hq
    subst hq
    show n ∉ p.2.entraid_human_identities.erase n
    intro hc
    have h1 := hcount p hpdir
    have h3 := List.one_le_count_iff.mpr hc
    rw [List.count_erase_self] at h3
    have h2 := List.one_le_count_iff.mpr hmem
    omega
  · rw [heq]
    intro q hq
    rw [hhead] at hq
    rw [← Option.some.injEq p q |>.mp hq]
    exact hmem

/-! ### Folding the loop bodies -/

theorem eq_nil_of_head?_eq_none {α : Type} {l : List α} (h : l.head? = none) :
    l = [] := by
  cases l with
  | nil => rfl
  | cons a t => rw [List.head?_cons] at h; exact absurd h (by simp)

theorem joinStep_noop_of_joinDone {dir : Dir} {n t : String}
    (hnm : ¬ hasMember dir t n) (hjd : joinDone dir n t) :
    joinStep n dir t = (dir, none) := by
  rcases hjd with hm | ⟨hnil, hex⟩
  · exact absurd hm hnm
  · exact joinStep_of_create_fail hnil hex

theorem leaveStep_noop_of_leaveDone {dir : Dir} {n c : String} (hwf : WF dir)
    (h : leaveDone dir n c) : leaveStep n dir c = (dir, none) := by
  cases hhead : (entriesNamed dir c).head? with
  | none => exact leaveStep_of_none (eq_nil_of_head?_eq_none hhead)
  | some p => exact leaveStep_of_nonmember hwf hhead (h p hhead)

theorem processSteps_of_noop {step : Dir → String → Dir × Option String}
    {dir : Dir} : ∀ {gs : List String}, (∀ g ∈ gs, step dir g = (dir, none)) →
      processSteps step dir gs = (dir, [])
  | [], _ => rfl
  | g :: gs, h => by
    have hrec := processSteps_of_noop
      (fun g' hg' => h g' (List.mem_cons_of_mem g hg'))
    unfold processSteps
    rw [h g (List.mem_cons_self g gs)]
    dsimp only
    rw [hrec]
    rfl

theorem processSteps_cons (step : Dir → String → Dir × Option String)
    (dir : Dir) (g : String) (gs : List String) :
    processSteps step dir (g :: gs) =
      ((processSteps step (step dir g).1 gs).1,
       (step dir g).2.toList ++ (processSteps step (step dir g).1 gs).2) := by
  rcases hs : step dir g with ⟨dir2, m⟩
  rcases hp : processSteps step dir2 gs with ⟨dir3, ms⟩
  show (match step dir g with
    | (dir2, m) =>
      match processSteps step dir2 gs with
      | (dir3, ms) => (dir3, m.toList ++ ms)) = _
  rw [hs]
  dsimp only
  rw [hp]

theorem processSteps_cons_fst (step : Dir → String → Dir × Option String)
    (dir : Dir) (g : String) (gs : List String) :
    (processSteps step dir (g :: gs)).1 =
      (processSteps step (step dir g).1 gs).1 := by
  rw [processSteps_cons]

/-- Invariants established and preserved by the whole `groups_to_join` loop:
well-formedness, the at-most-once bound, untouched group names, monotone
file set, and `joinDone` for every processed name. -/
theorem processJoins_spec (n : String) (hn : n ≠ "") :
    ∀ (gs : List String) (dir : Dir), WF dir → countLe1 dir n → gs.Nodup →
      WF (processSteps (joinStep n) dir gs).1 ∧
      countLe1 (processSteps (joinStep n) dir gs).1 n ∧
      (∀ c, c ∉ gs →
        entriesNamed (processSteps (joinStep n) dir gs).1 c = entriesNamed dir c) ∧
      (∀ f ∈ files dir, f ∈ files (processSteps (joinStep n) dir gs).1) ∧
      (∀ t ∈ gs, joinDone (processSteps (joinStep n) dir gs).1 n t)
  | [], dir, hwf, hc, _ => by
    refine ⟨hwf, hc, fun c _ => rfl, fun f hf => hf, fun t ht => absurd ht (by simp)⟩
  | g :: gs, dir, hwf, hc, hnd => by
    rw [List.nodup_cons] at hnd
    obtain ⟨hg, hgs⟩ := hnd
    obtain ⟨hwf2, hc2, hpres2, hfiles2⟩ := joinStep_basic n g hwf hc
    have hjd2 : joinDone (joinStep n dir g).1 n g := joinStep_establishes n g hwf hn
    obtain ⟨hwf3, hc3, hpres3, hfiles3, hjd3⟩ :=
      processJoins_spec n hn gs (joinStep n dir g).1 hwf2 hc2 hgs
    rw [processSteps_cons_fst]
    refine ⟨hwf3, hc3, ?_, ?_, ?_⟩
    · intro c hcg
      rw [List.mem_cons, not_or] at hcg
      rw [hpres3 c hcg.2, hpres2 c hcg.1]
    · intro f hf
      exact hfiles3 f (hfiles2 f hf)
    · intro t ht
      rcases List.mem_cons.mp ht with rfl | ht2
      · exact joinDone_transfer (hpres3 t hg) hfiles3 hjd2
      · exact hjd3 t ht2

/-- Invariants established and preserved by the whole `groups_to_leave` loop. -/
theorem processLeaves_spec (n : String) :
    ∀ (cs : List String) (dir : Dir), WF dir → countLe1 dir n → cs.Nodup →
      WF (processSteps (leaveStep n) dir cs).1 ∧
      countLe1 (processSteps (leaveStep n) dir cs).1 n ∧
      (∀ c, c ∉ cs →
        entriesNamed (processSteps (leaveStep n) dir cs).1 c = entriesNamed dir c) ∧
      files (processSteps (leaveStep n) dir cs).1 = files dir ∧
      (∀ c ∈ cs, leaveDone (processSteps (leaveStep n) dir cs).1 n c)
  | [], dir, hwf, hc, _ => by
    refine ⟨hwf, hc, fun c _ => rfl, rfl, fun c hcs => absurd hcs (by simp)⟩
  | c0 :: cs, dir, hwf, hc, hnd => by
    rw [List.nodup_cons] at hnd
    obtain ⟨hg, hgs⟩ := hnd
    obtain ⟨hwf2, hc2, hpres2, hfiles2⟩ := leaveStep_basic n c0 hwf hc
    have hld2 : leaveDone (leaveStep n dir c0).1 n c0 :=
      leaveStep_establishes n c0 hwf hc
    obtain ⟨hwf3, hc3, hpres3, hfiles3, hld3⟩ :=
      processLeaves_spec n cs (leaveStep n dir c0).1 hwf2 hc2 hgs
    rw [processSteps_cons_fst]
    refine ⟨hwf3, hc3, ?_, ?_, ?_⟩
    · intro c hcg
      rw [List.mem_cons, not_or] at hcg
      rw [hpres3 c hcg.2, hpres2 c hcg.1]
    · rw [hfiles3, hfiles2]
    · intro c hcs
      rcases List.mem_cons.mp hcs with rfl | ht2
      · exact leaveDone_transfer (hpres3 c hg) hld2
      · exact hld3 c ht2

/-! ### Membership bridges -/

theorem mem_currentOf {dir : Dir} {n c : String} :
    c ∈ currentOf dir n ↔ hasMember dir c n := by
  unfold currentOf current_memberships hasMember entriesNamed
  rw [List.mem_dedup, List.mem_map]
  constructor
  · rintro ⟨p, hp, rfl⟩
    rw [List.mem_filter] at hp
    refine ⟨p, ?_, by simpa using hp.2⟩
    rw [List.mem_filter]
    exact ⟨hp.1, by simp⟩
  · rintro ⟨p, hp, hmem⟩
    rw [List.mem_filter] at hp
    refine ⟨p, ?_, ?_⟩
    · rw [List.mem_filter]
      exact ⟨hp.1, by simpa using hmem⟩
    · simpa using hp.2

theorem mem_toJoin {dir : Dir} {n : String} {gn : List String} {t : String} :
    t ∈ toJoin dir n gn ↔ t ∈ targetsOf gn ∧ ¬ hasMember dir t n := by
  unfold toJoin
  rw [List.mem_filter]
  constructor
  · rintro ⟨h1, h2⟩
    have h3 : t ∉ currentOf dir n := by simpa using h2
    exact ⟨h1, fun hm => h3 (mem_currentOf.mpr hm)⟩
  · rintro ⟨h1, h2⟩
    refine ⟨h1, ?_⟩
    have h3 : t ∉ currentOf dir n := fun hm => h2 (mem_currentOf.mp hm)
    simpa using h3

theorem mem_toLeave {dir : Dir} {n : String} {gn : List String} {c : String} :
    c ∈ toLeave dir n gn ↔ hasMember dir c n ∧ c ∉ targetsOf gn := by
  unfold toLeave
  rw [List.mem_filter]
  constructor
  · rintro ⟨h1, h2⟩
    exact ⟨mem_currentOf.mp h1, by simpa using h2⟩
  · rintro ⟨h1, h2⟩
    exact ⟨mem_currentOf.mpr h1, by simpa using h2⟩

theorem hasMember_transfer {dirA dirB : Dir} {n c : String}
    (hE : entriesNamed dirB c = entriesNamed dirA c)
    (h : hasMember dirA c n) : hasMember dirB c n := by
  obtain ⟨p, hp, hmem⟩ := h
  exact ⟨p, by rw [hE]; exact hp, hmem⟩

/-! ### The reconciliation pass as a whole -/

theorem sync_user_groups_eq (dir : Dir) (n : String) (gn : List String) :
    sync_user_groups dir n gn =
      ((processSteps (leaveStep n)
          (processSteps (joinStep n) dir (toJoin dir n gn)).1 (toLeave dir n gn)).1,
       sortStrings (((processSteps (joinStep n) dir (toJoin dir n gn)).2 ++
         (processSteps (leaveStep n)
           (processSteps (joinStep n) dir (toJoin dir n gn)).1
           (toLeave dir n gn)).2).dedup)) := by
  rcases h1 : processSteps (joinStep n) dir (toJoin dir n gn) with ⟨dir1, m1⟩
  rcases h2 : processSteps (leaveStep n) dir1 (toLeave dir n gn) with ⟨dir2, m2⟩
  show (match processSteps (joinStep n) dir (toJoin dir n gn) with
    | (dir1, m1) =>
      match processSteps (leaveStep n) dir1 (toLeave dir n gn) with
      | (dir2, m2) => (dir2, sortStrings (m1 ++ m2).dedup)) = _
  rw [h1]
  dsimp only
  rw [h2]

/-- After one `sync_user_groups` pass (for a non-empty display name, over a
well-formed directory in which no document lists the name twice), the
directory is stable: every target is `joinDone` and every non-target is
`leaveDone`. -/
theorem sync_stable (dir : Dir) (n : String) (ts : List String)
    (hwf : WF dir) (hn : n ≠ "") (hc : countLe1 dir n) :
    WF (sync_user_groups dir n ts).1 ∧
    countLe1 (sync_user_groups dir n ts).1 n ∧
    (∀ t ∈ targetsOf ts, joinDone (sync_user_groups dir n ts).1 n t) ∧
    (∀ c, c ∉ targetsOf ts → leaveDone (sync_user_groups dir n ts).1 n c) := by
  have hjnd : (toJoin dir n ts).Nodup := (List.nodup_dedup ts).filter _
  have hlnd : (toLeave dir n ts).Nodup :=
    (List.nodup_dedup (current_memberships dir n)).filter _
  obtain ⟨hwf1, hc1, hpres1, hfiles1, hjd1⟩ :=
    processJoins_spec n hn (toJoin dir n ts) dir hwf hc hjnd
  obtain ⟨hwf2, hc2, hpres2, hfiles2, hld2⟩ :=
    processLeaves_spec n (toLeave dir n ts)
      (processSteps (joinStep n) dir (toJoin dir n ts)).1 hwf1 hc1 hlnd
  have hfst : (sync_user_groups dir n ts).1 =
      (processSteps (leaveStep n)
        (processSteps (joinStep n) dir (toJoin dir n ts)).1 (toLeave dir n ts)).1 := by
    rw [sync_user_groups_eq]
  rw [hfst]
  refine ⟨hwf2, hc2, ?_, ?_⟩
  · intro t ht
    by_cases htj : t ∈ toJoin dir n ts
    · have htl : t ∉ toLeave dir n ts := fun hm => (mem_toLeave.mp hm).2 ht
      exact joinDone_transfer (hpres2 t htl)
        (fun f hf => by rw [hfiles2]; exact hf) (hjd1 t htj)
    · have hm : hasMember dir t n := by
        by_contra hnm
        exact htj (mem_toJoin.mpr ⟨ht, hnm⟩)
      have htl : t ∉ toLeave dir n ts := fun hmem => (mem_toLeave.mp hmem).2 ht
      refine Or.inl (hasMember_transfer ?_ hm)
      rw [hpres2 t htl, hpres1 t htj]
  · intro c hcts
    by_cases hctl : c ∈ toLeave dir n ts
    · exact hld2 c hctl
    · have hnm : ¬ hasMember dir c n := by
        intro hm
        exact hctl (mem_toLeave.mpr ⟨hm, hcts⟩)
      have hctj : c ∉ toJoin dir n ts := fun hm => hcts (mem_toJoin.mp hm).1
      refine leaveDone_of_not_hasMember (fun hm2 => hnm ?_)
      exact hasMember_transfer (by rw [hpres2 c hctl, hpres1 c hctj]) hm2

/-- Over a stable directory, `sync_user_groups` writes nothing and records
nothing. -/
theorem sync_noop_of_stable (dir2 : Dir) (n : String) (ts : List String)
    (hwf2 : WF dir2)
    (hjd : ∀ t ∈ targetsOf ts, joinDone dir2 n t)
    (hld : ∀ c, c ∉ targetsOf ts → leaveDone dir2 n c) :
    sync_user_groups dir2 n ts = (dir2, []) := by
  have hjoin : processSteps (joinStep n) dir2 (toJoin dir2 n ts) = (dir2, []) := by
    refine processSteps_of_noop (fun t ht => ?_)
    obtain ⟨hts, hnm⟩ := mem_toJoin.mp ht
    exact joinStep_noop_of_joinDone hnm (hjd t hts)
  have hleave : processSteps (leaveStep n) dir2 (toLeave dir2 n ts) = (dir2, []) := by
    refine processSteps_of_noop (fun c hct => ?_)
    obtain ⟨hm, hnts⟩ := mem_toLeave.mp hct
    exact leaveStep_noop_of_leaveDone hwf2 (hld c hnts)
  rw [sync_user_groups_eq, hjoin]
  dsimp only
  rw [hleave]
  rfl

/-! ### Group names as unique keys

The spec's data model declares group names unique per directory.  Under that
invariant each group name has at most one document, and the convergence
property of `sync_user_groups` can be made exact. -/

def NamesNodup (dir : Dir) : Prop := (namesOf dir).Nodup

theorem nodup_append_singleton {α : Type} {l : List α} {a : α} (h : l.Nodup)
    (ha : a ∉ l) : (l ++ [a]).Nodup := by
  rw [List.nodup_append]
  refine ⟨h, List.nodup_singleton _, ?_⟩
  intro x hx hxa
  rw [List.mem_singleton] at hxa
  exact ha (hxa ▸ hx)

theorem entriesNamed_eq_nil_iff {dir : Dir} {c : String} :
    entriesNamed dir c = [] ↔ c ∉ namesOf dir := by
  unfold entriesNamed namesOf
  rw [List.filter_eq_nil_iff]
  constructor
  · intro h hc
    obtain ⟨p, hp, hpc⟩ := List.mem_map.mp hc
    have h2 := h p hp
    rw [decide_eq_true_eq] at h2
    exact h2 hpc
  · intro h p hp
    simp only [decide_eq_true_eq]
    intro hpc
    exact h (List.mem_map.mpr ⟨p, hp, hpc⟩)

theorem length_filter_le_one_of_map_nodup {α β : Type} {f : α → β}
    {q : α → Bool} : ∀ {l : List α}, (l.map f).Nodup →
      (∀ a b, q a → q b → f a = f b) → (l.filter q).length ≤ 1
  | [], _, _ => by simp
  | a :: t, h, hq => by
    rw [List.map_cons, List.nodup_cons] at h
    rw [List.filter_cons]
    by_cases ha : q a
    · rw [if_pos ha]
      have ht : t.filter q = [] := by
        rw [List.filter_eq_nil_iff]
        intro b hb hqb
        exact h.1 (List.mem_map.mpr ⟨b, hb, (hq b a hqb ha).symm ▸ rfl⟩)
      rw [ht]
      simp
    · rw [if_neg ha]
      exact length_filter_le_one_of_map_nodup h.2 hq

theorem entriesNamed_subsingleton {dir : Dir} (hnames : NamesNodup dir)
    (c : String) : (entriesNamed dir c).length ≤ 1 := by
  unfold entriesNamed
  refine length_filter_le_one_of_map_nodup hnames ?_
  intro a b ha hb
  rw [decide_eq_true_eq] at ha hb
  rw [ha, hb]

theorem entriesNamed_eq_singleton_of_head {dir : Dir} {c : String}
    {p : String × GroupDoc} (hnames : NamesNodup dir)
    (hhead : (entriesNamed dir c).head? = some p) : entriesNamed dir c = [p] := by
  have hlen := entriesNamed_subsingleton hnames c
  cases he : entriesNamed dir c with
  | nil => rw [he] at hhead; exact absurd hhead (by simp)
  | cons a t =>
    rw [he] at hhead hlen
    rw [List.head?_cons, Option.some.injEq] at hhead
    rw [List.length_cons] at hlen
    have ht : t = [] := List.length_eq_zero.mp (by omega)
    rw [hhead, ht]

/-- The `groups_to_join` loop under unique group names and collision-free
creations: names stay unique and every processed target ends up with exactly
one occurrence of the member. -/
theorem processJoins_strong (n : String) (hn : n ≠ "") :
    ∀ (gs : List String) (dir : Dir), WF dir → NamesNodup dir → countLe1 dir n →
      gs.Nodup →
      (∀ t ∈ gs, ¬ hasMember dir t n) →
      (∀ t ∈ gs, entriesNamed dir t = [] → fnameFor t ∉ files dir) →
      gs.Pairwise (fun t t' => entriesNamed dir t = [] → entriesNamed dir t' = [] →
        fnameFor t ≠ fnameFor t') →
      NamesNodup (processSteps (joinStep n) dir gs).1 ∧
      (∀ t ∈ gs, ∃ p ∈ entriesNamed (processSteps (joinStep n) dir gs).1 t,
        p.2.entraid_human_identities.count n = 1)
  | [], dir, _, hnames, _, _, _, _, _ =>
    ⟨hnames, fun t ht => absurd ht (by simp)⟩
  | g :: gs, dir, hwf, hnames, hc, hnd, hmem, hsafe, hpair => by
    rw [List.nodup_cons] at hnd
    obtain ⟨hg, hgs⟩ := hnd
    rw [List.pairwise_cons] at hpair
    obtain ⟨hpairhead, hpairtail⟩ := hpair
    obtain ⟨hwf2, hc2, hpres2, hfiles2⟩ := joinStep_basic n g hwf hc
    have hstep : NamesNodup (joinStep n dir g).1 ∧
        (∃ p ∈ entriesNamed (joinStep n dir g).1 g,
          p.2.entraid_human_identities.count n = 1) ∧
        (files (joinStep n dir g).1 = files dir ∨
         (entriesNamed dir g = [] ∧
          files (joinStep n dir g).1 = files dir ++ [fnameFor g])) := by
      rcases joinStep_cases n g hwf with
        ⟨p, hhead, hm, heq⟩ | ⟨p, hhead, hm, heq⟩ |
        ⟨hnil, hex, heq⟩ | ⟨hnil, hex, heq⟩
      · exact absurd ⟨p, mem_of_head?_eq hhead, hm⟩
          (hmem g (List.mem_cons_self g gs))
      · obtain ⟨hpdir, hpex, hpname⟩ := mem_dir_of_head_entriesNamed hhead
        rw [heq]
        dsimp only
        refine ⟨?_, ?_, Or.inl (files_writeDoc _ _ _)⟩
        · unfold NamesNodup
          rw [namesOf_writeDoc
            { p.2 with entraid_human_identities :=
                sortStrings (p.2.entraid_human_identities ++ [n]) }
            hwf hpdir rfl]
          exact hnames
        · refine ⟨(p.1,
            { p.2 with entraid_human_identities :=
                sortStrings (p.2.entraid_human_identities ++ [n]) }), ?_, ?_⟩
          · rw [entriesNamed_writeDoc
              { p.2 with entraid_human_identities :=
                  sortStrings (p.2.entraid_human_identities ++ [n]) }
              hwf hpdir rfl g]
            refine List.mem_map.mpr ⟨p, mem_of_head?_eq hhead, ?_⟩
            simp
          · show (sortStrings (p.2.entraid_human_identities ++ [n])).count n = 1
            rw [count_sortStrings, List.count_append,
              List.count_eq_zero.mpr hm, List.count_singleton]
            simp
      · exact absurd hex (hsafe g (List.mem_cons_self g gs) hnil)
      · rw [heq]
        dsimp only
        refine ⟨?_, ?_, Or.inr ⟨hnil, files_append dir _⟩⟩
        · unfold NamesNodup
          rw [namesOf_append_of_ne (fnameFor_ne_example g)]
          have hgname : (newGroupDoc g n).name = g := rfl
          rw [hgname]
          exact nodup_append_singleton hnames (entriesNamed_eq_nil_iff.mp hnil)
        · refine ⟨(fnameFor g, newGroupDoc g n), ?_, ?_⟩
          · rw [entriesNamed_append_of_ne (fnameFor_ne_example g) g, hnil]
            have hgname : (newGroupDoc g n).name = g := rfl
            rw [hgname, if_pos rfl]
            exact List.mem_singleton.mpr rfl
          · show ((newGroupDoc g n).entraid_human_identities).count n = 1
            unfold newGroupDoc
            dsimp only
            rw [if_neg hn, List.count_singleton]
            simp
    obtain ⟨hnames2, hcount_g, hfilechar⟩ := hstep
    have hmem2 : ∀ t ∈ gs, ¬ hasMember (joinStep n dir g).1 t n := by
      intro t ht hm2
      exact hmem t (List.mem_cons_of_mem g ht)
        (hasMember_transfer (hpres2 t (fun heq => hg (heq ▸ ht))).symm hm2)
    have hsafe2 : ∀ t ∈ gs, entriesNamed (joinStep n dir g).1 t = [] →
        fnameFor t ∉ files (joinStep n dir g).1 := by
      intro t ht hnil2 hfin
      have hne : t ≠ g := fun heq => hg (heq ▸ ht)
      have hEt : entriesNamed dir t = [] := by
        rw [← hpres2 t hne]
        exact hnil2
      have hnotin : fnameFor t ∉ files dir :=
        hsafe t (List.mem_cons_of_mem g ht) hEt
      rcases hfilechar with hfe | ⟨hgnil, hfe⟩
      · rw [hfe] at hfin
        exact hnotin hfin
      · rw [hfe] at hfin
        rcases List.mem_append.mp hfin with h1 | h1
        · exact hnotin h1
        · rw [List.mem_singleton] at h1
          exact hpairhead t ht hgnil hEt h1.symm
    have hpairtail2 : gs.Pairwise
        (fun t t' => entriesNamed (joinStep n dir g).1 t = [] →
          entriesNamed (joinStep n dir g).1 t' = [] → fnameFor t ≠ fnameFor t') := by
      refine List.Pairwise.imp_of_mem ?_ hpairtail
      intro a b ha hb hR hA hB
      refine hR ?_ ?_
      · rw [← hpres2 a (fun heq => hg (heq ▸ ha))]
        exact hA
      · rw [← hpres2 b (fun heq => hg (heq ▸ hb))]
        exact hB
    obtain ⟨hnames3, hcounts3⟩ := processJoins_strong n hn gs (joinStep n dir g).1
      hwf2 hnames2 hc2 hgs hmem2 hsafe2 hpairtail2
    obtain ⟨hwf3, hc3, hpres3, hfiles3, _⟩ :=
      processJoins_spec n hn gs (joinStep n dir g).1 hwf2 hc2 hgs
    rw [processSteps_cons_fst]
    refine ⟨hnames3, ?_⟩
    intro t ht
    rcases List.mem_cons.mp ht with rfl | ht2
    · obtain ⟨p, hp, hcnt⟩ := hcount_g
      refine ⟨p, ?_, hcnt⟩
      rw [hpres3 t hg]
      exact hp
    · exact hcounts3 t ht2

/-- The `groups_to_leave` loop under unique group names: names stay unique
and no document of a processed group lists the member afterwards. -/
theorem processLeaves_strong (n : String) :
    ∀ (cs : List String) (dir : Dir), WF dir → NamesNodup dir → countLe1 dir n →
      cs.Nodup →
      NamesNodup (processSteps (leaveStep n) dir cs).1 ∧
      (∀ c ∈ cs, ∀ p ∈ entriesNamed (processSteps (leaveStep n) dir cs).1 c,
        n ∉ p.2.entraid_human_identities)
  | [], dir, _, hnames, _, _ => ⟨hnames, fun c hc => absurd hc (by simp)⟩
  | c0 :: cs, dir, hwf, hnames, hc, hnd => by
    rw [List.nodup_cons] at hnd
    obtain ⟨hg, hgs⟩ := hnd
    obtain ⟨hwf2, hc2, hpres2, hfiles2⟩ := leaveStep_basic n c0 hwf hc
    have hstep : NamesNodup (leaveStep n dir c0).1 ∧
        (∀ p ∈ entriesNamed (leaveStep n dir c0).1 c0,
          n ∉ p.2.entraid_human_identities) := by
      rcases leaveStep_cases n c0 hwf with
        ⟨hnil, heq⟩ | ⟨p, hhead, hm, heq⟩ | ⟨p, hhead, hm, heq⟩
      · rw [heq]
        refine ⟨hnames, ?_⟩
        intro p hp
        rw [hnil] at hp
        exact absurd hp (by simp)
      · obtain ⟨hpdir, hpex, hpname⟩ := mem_dir_of_head_entriesNamed hhead
        have hsing : entriesNamed dir c0 = [p] :=
          entriesNamed_eq_singleton_of_head hnames hhead
        rw [heq]
        dsimp only
        refine ⟨?_, ?_⟩
        · unfold NamesNodup
          rw [namesOf_writeDoc
            { p.2 with entraid_human_identities :=
                p.2.entraid_human_identities.erase n }
            hwf hpdir rfl]
          exact hnames
        · intro q hq
          rw [entriesNamed_writeDoc
            { p.2 with entraid_human_identities :=
                p.2.entraid_human_identities.erase n }
            hwf hpdir rfl c0, hsing] at hq
          simp only [List.map_cons, List.map_nil, List.mem_singleton, if_true] at hq
          rw [hq]
          show n ∉ p.2.entraid_human_identities.erase n
          intro hcon
          have h1 := hc p hpdir
          have h3 := List.one_le_count_iff.mpr hcon
          rw [List.count_erase_self] at h3
          omega
      · have hsing : entriesNamed dir c0 = [p] :=
          entriesNamed_eq_singleton_of_head hnames hhead
        rw [heq]
        refine ⟨hnames, ?_⟩
        intro q hq
        rw [hsing, List.mem_singleton] at hq
        rw [hq]
        exact hm
    obtain ⟨hnames2, hdone2⟩ := hstep
    obtain ⟨hwf3, hc3, hpres3, hfiles3, _⟩ :=
      processLeaves_spec n cs (leaveStep n dir c0).1 hwf2 hc2 hgs
    obtain ⟨hnames3, hdone3⟩ :=
      processLeaves_strong n cs (leaveStep n dir c0).1 hwf2 hnames2 hc2 hgs
    rw [processSteps_cons_fst]
    refine ⟨hnames3, ?_⟩
    intro c hcs q hq
    rcases List.mem_cons.mp hcs with rfl | ht2
    · rw [hpres3 c hg] at hq
      exact hdone2 q hq
    · exact hdone3 c ht2 q hq

theorem mem_entriesNamed_unique {dir : Dir} {c : String}
    {p q : String × GroupDoc} (hnames : NamesNodup dir)
    (hp : p ∈ entriesNamed dir c) (hq : q ∈ entriesNamed dir c) : p = q := by
  cases he : entriesNamed dir c with
  | nil => rw [he] at hp; exact absurd hp (by simp)
  | cons a t =>
    have hsing : entriesNamed dir c = [a] :=
      entriesNamed_eq_singleton_of_head hnames (by rw [he]; rfl)
    rw [hsing] at hp hq
    rw [List.mem_singleton] at hp hq
    rw [hp, hq]

/-- Convergence of `sync_user_groups` under the data-model invariants
(unique filenames, unique group names, member listed at most once per
document, non-empty display name, collision-free creation filenames). -/
theorem sync_converges (dir : Dir) (n : String) (ts : List String)
    (hwf : WF dir) (hnames : NamesNodup dir) (hn : n ≠ "") (hc : countLe1 dir n)
    (hsafe : ∀ t ∈ targetsOf ts, entriesNamed dir t = [] → fnameFor t ∉ files dir)
    (hdist : (targetsOf ts).Pairwise (fun t t' => entriesNamed dir t = [] →
      entriesNamed dir t' = [] → fnameFor t ≠ fnameFor t')) :
    (∀ t ∈ ts, ∃ p ∈ entriesNamed (sync_user_groups dir n ts).1 t,
      p.2.entraid_human_identities.count n = 1) ∧
    (∀ p ∈ load_all_groups (sync_user_groups dir n ts).1, p.2.name ∈ ts →
      p.2.entraid_human_identities.count n = 1) ∧
    (∀ p ∈ load_all_groups (sync_user_groups dir n ts).1, p.2.name ∉ ts →
      n ∉ p.2.entraid_human_identities) := by
  have hjnd : (toJoin dir n ts).Nodup := (List.nodup_dedup ts).filter _
  have hlnd : (toLeave dir n ts).Nodup :=
    (List.nodup_dedup (current_memberships dir n)).filter _
  have hmemtj : ∀ t ∈ toJoin dir n ts, ¬ hasMember dir t n :=
    fun t ht => (mem_toJoin.mp ht).2
  have hsafetj : ∀ t ∈ toJoin dir n ts, entriesNamed dir t = [] →
      fnameFor t ∉ files dir :=
    fun t ht => hsafe t (mem_toJoin.mp ht).1
  have hpairtj : (toJoin dir n ts).Pairwise
      (fun t t' => entriesNamed dir t = [] → entriesNamed dir t' = [] →
        fnameFor t ≠ fnameFor t') := by
    unfold toJoin
    exact List.Pairwise.sublist (List.filter_sublist (targetsOf ts)) hdist
  obtain ⟨hwf1, hc1, hpres1, hfiles1, hjd1⟩ :=
    processJoins_spec n hn (toJoin dir n ts) dir hwf hc hjnd
  obtain ⟨hnames1, hcounts1⟩ := processJoins_strong n hn (toJoin dir n ts) dir
    hwf hnames hc hjnd hmemtj hsafetj hpairtj
  obtain ⟨hwf2, hc2, hpres2, hfiles2, hld2⟩ :=
    processLeaves_spec n (toLeave dir n ts)
      (processSteps (joinStep n) dir (toJoin dir n ts)).1 hwf1 hc1 hlnd
  obtain ⟨hnames2, hdone2⟩ :=
    processLeaves_strong n (toLeave dir n ts)
      (processSteps (joinStep n) dir (toJoin dir n ts)).1 hwf1 hnames1 hc1 hlnd
  have hfst : (sync_user_groups dir n ts).1 =
      (processSteps (leaveStep n)
        (processSteps (joinStep n) dir (toJoin dir n ts)).1 (toLeave dir n ts)).1 := by
    rw [sync_user_groups_eq]
  rw [hfst]
  have hmain : ∀ t ∈ targetsOf ts,
      ∃ p ∈ entriesNamed (processSteps (leaveStep n)
        (processSteps (joinStep n) dir (toJoin dir n ts)).1 (toLeave dir n ts)).1 t,
        p.2.entraid_human_identities.count n = 1 := by
    intro t ht
    have htl : t ∉ toLeave dir n ts := fun hm => (mem_toLeave.mp hm).2 ht
    by_cases htj : t ∈ toJoin dir n ts
    · obtain ⟨p, hp, hcnt⟩ := hcounts1 t htj
      refine ⟨p, ?_, hcnt⟩
      rw [hpres2 t htl]
      exact hp
    · have hm : hasMember dir t n := by
        by_contra hnm
        exact htj (mem_toJoin.mpr ⟨ht, hnm⟩)
      obtain ⟨p, hp, hpm⟩ := hm
      refine ⟨p, ?_, ?_⟩
      · rw [hpres2 t htl, hpres1 t htj]
        exact hp
      · have h1 := hc p (mem_load_all_groups.mp (mem_entriesNamed.mp hp).1).1
        have h2 := List.one_le_count_iff.mpr hpm
        omega
  refine ⟨?_, ?_, ?_⟩
  · intro t ht
    exact hmain t (List.mem_dedup.mpr ht)
  · intro p hp hpts
    have hpe : p ∈ entriesNamed (processSteps (leaveStep n)
        (processSteps (joinStep n) dir (toJoin dir n ts)).1 (toLeave dir n ts)).1
        p.2.name :=
      mem_entriesNamed.mpr ⟨hp, rfl⟩
    obtain ⟨w, hw, hwc⟩ := hmain p.2.name (List.mem_dedup.mpr hpts)
    rw [mem_entriesNamed_unique hnames2 hpe hw]
    exact hwc
  · intro p hp hpts
    have hnt : p.2.name ∉ targetsOf ts := fun hm => hpts (List.mem_dedup.mp hm)
    have hpe : p ∈ entriesNamed (processSteps (leaveStep n)
        (processSteps (joinStep n) dir (toJoin dir n ts)).1 (toLeave dir n ts)).1
        p.2.name :=
      mem_entriesNamed.mpr ⟨hp, rfl⟩
    by_cases htl : p.2.name ∈ toLeave dir n ts
    · exact hdone2 p.2.name htl p hpe
    · have hnm : ¬ hasMember dir p.2.name n := by
        intro hm
        exact htl (mem_toLeave.mpr ⟨hm, hnt⟩)
      have htj : p.2.name ∉ toJoin dir n ts :=
        fun hm => hnt (mem_toJoin.mp hm).1
      intro hcon
      apply hnm
      refine ⟨p, ?_, hcon⟩
      rw [← hpres1 p.2.name htj, ← hpres2 p.2.name htl]
      exact hpe

/-! ### Frame preservation: filenames, names and the non-membership fields -/

/-- The footprint a reconciler write must not disturb on an existing file:
its filename, its `name` and every other non-membership field. -/
def kappa (p : String × GroupDoc) : String × String × GroupRest :=
  (p.1, p.2.name, p.2.rest)

theorem kappa_writeDoc {dir : Dir} {f : String} {d0 : GroupDoc} (d : GroupDoc)
    (hwf : WF dir) (hp : (f, d0) ∈ dir) (hname : d.name = d0.name)
    (hrest : d.rest = d0.rest) :
    (writeDoc dir f d).map kappa = dir.map kappa := by
  unfold writeDoc
  rw [List.map_map]
  refine List.map_congr_left (fun q hq => ?_)
  by_cases hqf : q.1 = f
  · have heq : q = (f, d0) := eq_of_fst_eq_of_WF hwf hq hp hqf
    simp [kappa, hqf, heq, hname, hrest]
  · simp [kappa, hqf]

theorem joinStep_WF {dir : Dir} (n t : String) (hwf : WF dir) :
    WF (joinStep n dir t).1 := by
  rcases joinStep_cases n t hwf with
    ⟨p, _, _, heq⟩ | ⟨p, _, _, heq⟩ | ⟨_, _, heq⟩ | ⟨_, hex, heq⟩
  · rw [heq]; exact hwf
  · rw [heq]; exact WF_writeDoc _ _ hwf
  · rw [heq]; exact hwf
  · rw [heq]; exact WF_append hwf hex

theorem leaveStep_WF {dir : Dir} (n t : String) (hwf : WF dir) :
    WF (leaveStep n dir t).1 := by
  rcases leaveStep_cases n t hwf with ⟨_, heq⟩ | ⟨p, _, _, heq⟩ | ⟨p, _, _, heq⟩
  · rw [heq]; exact hwf
  · rw [heq]; exact WF_writeDoc _ _ hwf
  · rw [heq]; exact hwf

theorem joinStep_kappa {dir : Dir} (n t : String) (hwf : WF dir) :
    ∃ ext, (joinStep n dir t).1.map kappa = dir.map kappa ++ ext := by
  rcases joinStep_cases n t hwf with
    ⟨p, hhead, _, heq⟩ | ⟨p, hhead, _, heq⟩ | ⟨_, _, heq⟩ | ⟨_, _, heq⟩
  · rw [heq]; exact ⟨[], (List.append_nil _).symm⟩
  · obtain ⟨hpdir, _, _⟩ := mem_dir_of_head_entriesNamed hhead
    rw [heq]
    dsimp only
    refine ⟨[], ?_⟩
    rw [List.append_nil]
    exact kappa_writeDoc _ hwf hpdir rfl rfl
  · rw [heq]; exact ⟨[], (List.append_nil _).symm⟩
  · rw [heq]
    dsimp only
    exact ⟨[kappa (fnameFor t, newGroupDoc t n)], List.map_append _ _ _⟩

theorem leaveStep_kappa {dir : Dir} (n t : String) (hwf : WF dir) :
    (leaveStep n dir t).1.map kappa = dir.map kappa := by
  rcases leaveStep_cases n t hwf with ⟨_, heq⟩ | ⟨p, hhead, _, heq⟩ | ⟨p, _, _, heq⟩
  · rw [heq]
  · obtain ⟨hpdir, _, _⟩ := mem_dir_of_head_entriesNamed hhead
    rw [heq]
    dsimp only
    exact kappa_writeDoc _ hwf hpdir rfl rfl
  · rw [heq]

theorem processJoins_kappa (n : String) :
    ∀ (gs : List String) (dir : Dir), WF dir →
      ∃ ext, (processSteps (joinStep n) dir gs).1.map kappa = dir.map kappa ++ ext
  | [], dir, _ => ⟨[], (List.append_nil _).symm⟩
  | g :: gs, dir, hwf => by
    obtain ⟨ext1, h1⟩ := joinStep_kappa n g hwf
    obtain ⟨ext2, h2⟩ :=
      processJoins_kappa n gs (joinStep n dir g).1 (joinStep_WF n g hwf)
    rw [processSteps_cons_fst]
    exact ⟨ext1 ++ ext2, by rw [h2, h1, List.append_assoc]⟩

theorem processJoins_WF (n : String) :
    ∀ (gs : List String) (dir : Dir), WF dir →
      WF (processSteps (joinStep n) dir gs).1
  | [], dir, hwf => hwf
  | g :: gs, dir, hwf => by
    rw [processSteps_cons_fst]
    exact processJoins_WF n gs (joinStep n dir g).1 (joinStep_WF n g hwf)

theorem processLeaves_kappa (n : String) :
    ∀ (cs : List String) (dir : Dir), WF dir →
      (processSteps (leaveStep n) dir cs).1.map kappa = dir.map kappa
  | [], dir, _ => rfl
  | c :: cs, dir, hwf => by
    rw [processSteps_cons_fst]
    rw [processLeaves_kappa n cs (leaveStep n dir c).1 (leaveStep_WF n c hwf)]
    exact leaveStep_kappa n c hwf

theorem sync_user_groups_kappa (dir : Dir) (n : String) (ts : List String)
    (hwf : WF dir) :
    ∃ ext, (sync_user_groups dir n ts).1.map kappa = dir.map kappa ++ ext := by
  obtain ⟨ext, h1⟩ := processJoins_kappa n (toJoin dir n ts) dir hwf
  have hwf1 := processJoins_WF n (toJoin dir n ts) dir hwf
  have h2 := processLeaves_kappa n (toLeave dir n ts)
    (processSteps (joinStep n) dir (toJoin dir n ts)).1 hwf1
  have hfst : (sync_user_groups dir n ts).1 =
      (processSteps (leaveStep n)
        (processSteps (joinStep n) dir (toJoin dir n ts)).1 (toLeave dir n ts)).1 := by
    rw [sync_user_groups_eq]
  rw [hfst, h2, h1]
  exact ⟨ext, rfl⟩

theorem processRemoveAll_cons (u : String) (dir : Dir)
    (e : String × GroupDoc) (es : List (String × GroupDoc)) :
    processRemoveAll u dir (e :: es) =
      ((processRemoveAll u (removeAllStep u dir e).1 es).1,
       (removeAllStep u dir e).2.toList ++
         (processRemoveAll u (removeAllStep u dir e).1 es).2) := by
  rcases hs : removeAllStep u dir e with ⟨dir2, m⟩
  rcases hp : processRemoveAll u dir2 es with ⟨dir3, ms⟩
  show (match removeAllStep u dir e with
    | (dir2, m) =>
      match processRemoveAll u dir2 es with
      | (dir3, ms) => (dir3, m.toList ++ ms)) = _
  rw [hs]
  dsimp only
  rw [hp]

theorem processRemoveAll_kappa (u : String) :
    ∀ (es : List (String × GroupDoc)) (dir : Dir), WF dir →
      (es.map Prod.fst).Nodup →
      (∀ e ∈ es, ∃ d0, (e.1, d0) ∈ dir ∧ d0.name = e.2.name ∧ d0.rest = e.2.rest) →
      (processRemoveAll u dir es).1.map kappa = dir.map kappa ∧
      WF (processRemoveAll u dir es).1
  | [], dir, hwf, _, _ => ⟨rfl, hwf⟩
  | e :: es, dir, hwf, hnd, hinv => by
    rw [List.map_cons, List.nodup_cons] at hnd
    obtain ⟨he, hes⟩ := hnd
    obtain ⟨d0, hd0, hd0n, hd0r⟩ := hinv e (List.mem_cons_self e es)
    have hstep : (removeAllStep u dir e).1.map kappa = dir.map kappa ∧
        WF (removeAllStep u dir e).1 ∧
        (∀ q ∈ dir, q.1 ≠ e.1 → q ∈ (removeAllStep u dir e).1) := by
      unfold removeAllStep
      by_cases hm : u ∈ e.2.entraid_human_identities
      · rw [if_pos hm]
        dsimp only
        refine ⟨?_, WF_writeDoc _ _ hwf, ?_⟩
        · refine kappa_writeDoc _ hwf hd0 ?_ ?_
          · rw [hd0n]
          · rw [hd0r]
        · intro q hq hq1
          exact mem_writeDoc_of_mem hq hq1
      · rw [if_neg hm]
        exact ⟨rfl, hwf, fun q hq _ => hq⟩
    obtain ⟨hk2, hwf2, hmem2⟩ := hstep
    have hinv2 : ∀ e2 ∈ es, ∃ d0, (e2.1, d0) ∈ (removeAllStep u dir e).1 ∧
        d0.name = e2.2.name ∧ d0.rest = e2.2.rest := by
      intro e2 he2
      obtain ⟨d2, hd2, hd2n, hd2r⟩ := hinv e2 (List.mem_cons_of_mem e he2)
      have hne : e2.1 ≠ e.1 := by
        intro hc
        exact he (hc ▸ List.mem_map_of_mem Prod.fst he2)
      exact ⟨d2, hmem2 (e2.1, d2) hd2 hne, hd2n, hd2r⟩
    obtain ⟨hk3, hwf3⟩ :=
      processRemoveAll_kappa u es (removeAllStep u dir e).1 hwf2 hes hinv2
    rw [processRemoveAll_cons]
    exact ⟨by rw [hk3, hk2], hwf3⟩

theorem remove_user_from_all_groups_kappa (dir : Dir) (u : String)
    (hwf : WF dir) :
    (remove_user_from_all_groups dir u).1.map kappa = dir.map kappa := by
  unfold remove_user_from_all_groups
  have hsub : (load_all_groups dir).Sublist dir := List.filter_sublist dir
  have hnd : ((load_all_groups dir).map Prod.fst).Nodup :=
    List.Nodup.sublist (hsub.map Prod.fst) hwf
  have hinv : ∀ e ∈ load_all_groups dir,
      ∃ d0, (e.1, d0) ∈ dir ∧ d0.name = e.2.name ∧ d0.rest = e.2.rest :=
    fun e he => ⟨e.2, hsub.mem he, rfl, rfl⟩
  exact (processRemoveAll_kappa u (load_all_groups dir) dir hwf hnd hinv).1

/-! ### Reading back a just-written file -/

theorem getDoc_writeDoc {dir : Dir} {f : String} {d0 : GroupDoc}
    (hd : getDoc dir f = some d0) (d2 : GroupDoc) :
    getDoc (writeDoc dir f d2) f = some d2 := by
  unfold getDoc writeDoc at *
  rw [find?_map_of_pres (fun p _ => by by_cases hp : p.1 = f <;> simp [hp])]
  rcases hfind : dir.find? (fun p => p.1 = f) with _ | p
  · rw [hfind] at hd
    exact absurd hd (by simp)
  · have hp1 : p.1 = f := by simpa using List.find?_some hfind
    rw [hfind]
    simp [hp1]

end GroupHandler

/-! ## The claims -/

/-- C3 (counterexample): an event with neither title nor department yields
`identity.team = "general"`, not the `"user"` the claim states — `scim_to_yaml`
defaults an *absent* department to `"general"` (and the repository's own test
suite asserts exactly that). -/
theorem claim_C3_counterexample :
    (YAMLGenerator.scim_to_yaml "schema.yaml" "2026-10-12"
      { id := none, userName := none, displayName := none, emails := none,
        active := none, title := none, department := none }).2.identity.team
      = "general" ∧ ("general" : String) ≠ "user" := by
  constructor
  · rfl
  · decide

/-- C3 (amended): for a provisioning event whose title is absent or empty,
the built document has `identity.role = "user"` and
`policies.identity_policies = ["user-policy"]`; `identity.team` is `"user"`
when the department is present but empty, and `"general"` when the department
is absent. -/
theorem claim_C3_default_fallback (sp td : String) (u : ScimUser)
    (ht : u.title = none ∨ u.title = some "")
    (hd : u.department = none ∨ u.department = some "") :
    (YAMLGenerator.scim_to_yaml sp td u).2.identity.role = "user" ∧
    (YAMLGenerator.scim_to_yaml sp td u).2.policies.identity_policies =
      ["user-policy"] ∧
    (YAMLGenerator.scim_to_yaml sp td u).2.identity.team =
      (if u.department = none then "general" else "user") := by
  have e1 : YAMLGenerator.sanitize_field "user" = "user" := by decide
  have e2 : YAMLGenerator.sanitize_field "" = "user" := by decide
  have e3 : YAMLGenerator.sanitize_field "general" = "general" := by decide
  have e4 : ("user" : String) ++ "-policy" = "user-policy" := rfl
  rcases ht with h | h <;> rcases hd with h2 | h2 <;>
    simp [YAMLGenerator.scim_to_yaml, h, h2, e1, e2, e3, e4]

/-- C3 (witness): the amended claim at a concrete event with an absent title
and a present-but-empty department. -/
theorem claim_C3_witness :
    (YAMLGenerator.scim_to_yaml "s" "d"
      { id := none, userName := none, displayName := none, emails := none,
        active := none, title := none, department := some "" }).2.identity.role
      = "user" ∧
    (YAMLGenerator.scim_to_yaml "s" "d"
      { id := none, userName := none, displayName := none, emails := none,
        active := none, title := none, department := some "" }).2.policies.identity_policies
      = ["user-policy"] ∧
    (YAMLGenerator.scim_to_yaml "s" "d"
      { id := none, userName := none, displayName := none, emails := none,
        active := none, title := none, department := some "" }).2.identity.team
      = (if (some "" : Option String) = none then "general" else "user") :=
  claim_C3_default_fallback "s" "d"
    { id := none, userName := none, displayName := none, emails := none,
      active := none, title := none, department := some "" }
    (Or.inl rfl) (Or.inr rfl)

/-- C6 (counterexample): `_sanitize_field` replaces only the space character
by an underscore; a tab is deleted by the character filter instead, so on
`"a\tb"` the code produces `"ab"` while the claimed algorithm (replace every
whitespace character) produces `"a_b"`. -/
theorem claim_C6_counterexample :
    YAMLGenerator.sanitize_field "a\tb" = "ab" ∧
    specSanitize "a\tb" = "a_b" ∧ ("ab" : String) ≠ "a_b" := by
  refine ⟨by decide, by decide, by decide⟩

/-- C6 (amended): `_sanitize_field` computes exactly the spec §4.1 algorithm
with "whitespace" narrowed to the space character U+0020 (the spec's
collapse-before-trim order is equivalent to the code's trim-before-collapse
order); it is total by construction and idempotent. -/
theorem claim_C6_sanitizer (s : String) :
    YAMLGenerator.sanitize_field s = specSanitizeAmended s ∧
    YAMLGenerator.sanitize_field (YAMLGenerator.sanitize_field s) =
      YAMLGenerator.sanitize_field s :=
  ⟨sanitize_field_eq_specSanitizeAmended s, sanitize_field_idem s⟩

/-- C7 (counterexample): for a group name consisting only of special
characters, `sync_user_groups` creates `identity_group_unknown_group.yaml` —
`_sanitize_group_name` falls back to `"unknown_group"`, not the canonical
sanitiser's `"user"`, so the claimed `identity_group_user.yaml` is wrong. -/
theorem claim_C7_counterexample :
    (GroupHandler.sync_user_groups [] "Alice" ["!!!"]).1.map Prod.fst =
      ["identity_group_unknown_group.yaml"] ∧
    ("identity_group_unknown_group.yaml" : String) ≠ "identity_group_user.yaml" := by
  refine ⟨by decide, by decide⟩

/-- C7 (amended): every file created by `_create_group_file` is named
`identity_group_{_sanitize_group_name(g)}.yaml`, and `_sanitize_group_name`
agrees with the canonical sanitiser `_sanitize_field` whenever the sanitised
token is non-empty; when it is empty the fallback is `"unknown_group"`
(instead of the canonical `"user"`). -/
theorem claim_C7_group_filename (dir : GroupHandler.Dir) (g m f : String)
    (hf : (GroupHandler.create_group_file dir g m).2 = some f) :
    f = "identity_group_" ++ GroupHandler.sanitize_group_name g ++ ".yaml" ∧
    (fieldToken g ≠ [] →
      GroupHandler.sanitize_group_name g = YAMLGenerator.sanitize_field g) ∧
    (fieldToken g = [] →
      GroupHandler.sanitize_group_name g = "unknown_group") := by
  refine ⟨?_, ?_, ?_⟩
  · unfold GroupHandler.create_group_file at hf
    by_cases hc : ((dir.map Prod.fst).contains (GroupHandler.fnameFor g)) = true
    · rw [if_pos hc] at hf
      exact absurd hf (by simp)
    · rw [if_neg hc] at hf
      have hf2 : GroupHandler.fnameFor g = f := by
        simpa using hf
      rw [← hf2]
      rfl
  · intro hne
    rw [sanitize_group_name_eq g, if_neg (by simpa [List.isEmpty_iff] using hne)]
  · intro hnil
    rw [sanitize_group_name_eq g, if_pos (by simpa [List.isEmpty_iff] using hnil)]

/-- C7 (witness): creating `"Dev Team"` in an empty directory yields
`identity_group_dev_team.yaml`, matching the canonical sanitiser. -/
theorem claim_C7_witness :
    ("identity_group_dev_team.yaml" : String) =
      "identity_group_" ++ GroupHandler.sanitize_group_name "Dev Team" ++ ".yaml" ∧
    (fieldToken "Dev Team" ≠ [] →
      GroupHandler.sanitize_group_name "Dev Team" =
        YAMLGenerator.sanitize_field "Dev Team") ∧
    (fieldToken "Dev Team" = [] →
      GroupHandler.sanitize_group_name "Dev Team" = "unknown_group") :=
  claim_C7_group_filename [] "Dev Team" "Alice" "identity_group_dev_team.yaml"
    (by decide)

/-- C8: a `put` followed, on a freshly constructed store over the same
backing file, by a `get` of the same external id returns exactly the stored
4-field record — the record for the key is fully replaced regardless of the
prior state. -/
theorem claim_C8_roundtrip (st : UserStore.DataFile) (k n f : String)
    (e : List (String × String)) :
    UserStore.get_user
        (UserStore.construct (UserStore.add_user (UserStore.construct st) k n f e))
        k =
      some { scim_id := k, name := n, filename := f, extra_fields := e } := by
  show ((if (UserStore.read_data (UserStore.construct st)).any (fun p => p.1 = k) then
        (UserStore.read_data (UserStore.construct st)).map
          (fun p => if p.1 = k then (k, ⟨k, n, f, e⟩) else p)
      else UserStore.read_data (UserStore.construct st) ++ [(k, ⟨k, n, f, e⟩)]).find?
        (fun p => p.1 = k)).map (·.2) = some ⟨k, n, f, e⟩
  by_cases h : (UserStore.read_data (UserStore.construct st)).any (fun p => p.1 = k) = true
  · rw [if_pos h, UserStore.find?_upsert_map, if_pos h]
    rfl
  · have h2 : (UserStore.read_data (UserStore.construct st)).any (fun p => p.1 = k)
        = false := Bool.eq_false_iff.mpr h
    rw [if_neg h, UserStore.find?_append_self _ _ _ h2]
    rfl

/-- C9: `delete_user` returns `true` exactly when a record for the key
exists; on `false` the backing file is untouched, and on `true` the store
afterwards holds precisely the records of other keys, unchanged and in
order. -/
theorem claim_C9_delete (st : UserStore.DataFile) (k : String) :
    ((UserStore.delete_user st k).2 = true ↔
      ∃ r ∈ UserStore.read_data st, r.1 = k) ∧
    ((UserStore.delete_user st k).2 = false →
      (UserStore.delete_user st k).1 = st) ∧
    ((UserStore.delete_user st k).2 = true →
      UserStore.read_data (UserStore.delete_user st k).1 =
        (UserStore.read_data st).filter (fun r => r.1 ≠ k) ∧
      ∀ r ∈ UserStore.read_data (UserStore.delete_user st k).1, r.1 ≠ k) := by
  unfold UserStore.delete_user
  by_cases h : (UserStore.read_data st).any (fun p => p.1 = k) = true
  · rw [if_pos h]
    refine ⟨?_, ?_, ?_⟩
    · constructor
      · intro _
        obtain ⟨x, hx, hp⟩ := List.any_eq_true.mp h
        exact ⟨x, hx, by simpa using hp⟩
      · intro _
        rfl
    · intro h2
      exact absurd h2 (by simp)
    · intro _
      refine ⟨rfl, ?_⟩
      intro r hr
      have h3 := List.of_mem_filter hr
      simpa using h3
  · rw [if_neg h]
    refine ⟨?_, ?_, ?_⟩
    · constructor
      · intro hc
        exact absurd hc (by simp)
      · rintro ⟨x, hx, hp⟩
        exact absurd (List.any_eq_true.mpr ⟨x, hx, by simpa using hp⟩) h
    · intro _
      rfl
    · intro hc
      exact absurd hc (by simp)

/-- C9 (witness): the delete specification applied to a one-record store. -/
theorem claim_C9_witness :
    ((UserStore.delete_user
        (UserStore.DataFile.good [("id1", ⟨"id1", "Jane", "f.yaml", []⟩)]) "id1").2 = true ↔
      ∃ r ∈ UserStore.read_data
        (UserStore.DataFile.good [("id1", ⟨"id1", "Jane", "f.yaml", []⟩)]), r.1 = "id1") ∧
    ((UserStore.delete_user
        (UserStore.DataFile.good [("id1", ⟨"id1", "Jane", "f.yaml", []⟩)]) "id1").2 = false →
      (UserStore.delete_user
        (UserStore.DataFile.good [("id1", ⟨"id1", "Jane", "f.yaml", []⟩)]) "id1").1 =
        UserStore.DataFile.good [("id1", ⟨"id1", "Jane", "f.yaml", []⟩)]) ∧
    ((UserStore.delete_user
        (UserStore.DataFile.good [("id1", ⟨"id1", "Jane", "f.yaml", []⟩)]) "id1").2 = true →
      UserStore.read_data (UserStore.delete_user
        (UserStore.DataFile.good [("id1", ⟨"id1", "Jane", "f.yaml", []⟩)]) "id1").1 =
        (UserStore.read_data
          (UserStore.DataFile.good [("id1", ⟨"id1", "Jane", "f.yaml", []⟩)])).filter
          (fun r => r.1 ≠ "id1") ∧
      ∀ r ∈ UserStore.read_data (UserStore.delete_user
        (UserStore.DataFile.good [("id1", ⟨"id1", "Jane", "f.yaml", []⟩)]) "id1").1,
        r.1 ≠ "id1") :=
  claim_C9_delete (UserStore.DataFile.good [("id1", ⟨"id1", "Jane", "f.yaml", []⟩)]) "id1"

/-- C10 (counterexample): on a corrupted backing file, `delete_user` does
*not* rewrite the file — the key is never found in the empty parsed snapshot,
so it returns `false` without writing and the file stays corrupted, contrary
to the claim that the next mutating call (add_user *or delete_user*)
rewrites it. -/
theorem claim_C10_counterexample :
    UserStore.delete_user UserStore.DataFile.corrupt "id1" =
      (UserStore.DataFile.corrupt, false) ∧
    UserStore.DataFile.corrupt ≠ UserStore.write_data [] := by
  refine ⟨rfl, by decide⟩

/-- C10 (amended): with a corrupted backing file every read behaves as if
the store were empty; the next `add_user` rewrites the file from that empty
snapshot (permanently discarding whatever the corrupted file held), while
`delete_user` returns `false` for every key and leaves the corrupted file in
place unrewritten. -/
theorem claim_C10_corrupt_file (k n f k2 : String) (e : List (String × String)) :
    UserStore.get_user UserStore.DataFile.corrupt k2 = none ∧
    UserStore.list_all_users UserStore.DataFile.corrupt = [] ∧
    UserStore.user_exists UserStore.DataFile.corrupt k2 = false ∧
    UserStore.add_user UserStore.DataFile.corrupt k n f e =
      UserStore.write_data
        [(k, { scim_id := k, name := n, filename := f, extra_fields := e })] ∧
    UserStore.delete_user UserStore.DataFile.corrupt k2 =
      (UserStore.DataFile.corrupt, false) :=
  ⟨rfl, rfl, rfl, rfl, rfl⟩

/-- C1 (counterexample): two distinct target names that sanitise to the same
filename (`"Dev Team"` and `"Dev  Team"` both give
`identity_group_dev_team.yaml`) break convergence on an empty directory: the
second creation is refused because the file already exists, so no document
named `"Dev  Team"` ever holds the user. -/
theorem claim_C1_counterexample :
    ¬ ∀ t ∈ ["Dev Team", "Dev  Team"],
        ∃ p ∈ GroupHandler.entriesNamed
            (GroupHandler.sync_user_groups [] "Alice" ["Dev Team", "Dev  Team"]).1 t,
          p.2.entraid_human_identities.count "Alice" = 1 := by
  decide

/-- C1 (amended): convergence of `sync_user_groups` holds under the implicit
preconditions the claim omits: distinct filenames, distinct group names, a
non-empty display name, the name appearing at most once per document, fresh
groups not colliding with existing files, and no two to-be-created targets
sanitising to the same filename. Then every target's document counts the
name exactly once and every other document does not contain it. -/
theorem claim_C1_convergence (dir : GroupHandler.Dir) (n : String)
    (ts : List String) (hwf : GroupHandler.WF dir)
    (hnames : GroupHandler.NamesNodup dir) (hn : n ≠ "")
    (hc : GroupHandler.countLe1 dir n)
    (hsafe : ∀ t ∈ GroupHandler.targetsOf ts,
      GroupHandler.entriesNamed dir t = [] →
        GroupHandler.fnameFor t ∉ GroupHandler.files dir)
    (hdist : (GroupHandler.targetsOf ts).Pairwise
      (fun t t' => GroupHandler.entriesNamed dir t = [] →
        GroupHandler.entriesNamed dir t' = [] →
          GroupHandler.fnameFor t ≠ GroupHandler.fnameFor t')) :
    (∀ t ∈ ts, ∃ p ∈ GroupHandler.entriesNamed
        (GroupHandler.sync_user_groups dir n ts).1 t,
      p.2.entraid_human_identities.count n = 1) ∧
    (∀ p ∈ GroupHandler.load_all_groups
        (GroupHandler.sync_user_groups dir n ts).1,
      p.2.name ∈ ts → p.2.entraid_human_identities.count n = 1) ∧
    (∀ p ∈ GroupHandler.load_all_groups
        (GroupHandler.sync_user_groups dir n ts).1,
      p.2.name ∉ ts → n ∉ p.2.entraid_human_identities) :=
  GroupHandler.sync_converges dir n ts hwf hnames hn hc hsafe hdist

/-- C1 (witness): the amended convergence claim at an empty directory,
display name `"Alice Smith"` and single target `"Devs"`. -/
theorem claim_C1_witness :
    (∀ t ∈ ["Devs"], ∃ p ∈ GroupHandler.entriesNamed
        (GroupHandler.sync_user_groups [] "Alice Smith" ["Devs"]).1 t,
      p.2.entraid_human_identities.count "Alice Smith" = 1) ∧
    (∀ p ∈ GroupHandler.load_all_groups
        (GroupHandler.sync_user_groups [] "Alice Smith" ["Devs"]).1,
      p.2.name ∈ ["Devs"] →
        p.2.entraid_human_identities.count "Alice Smith" = 1) ∧
    (∀ p ∈ GroupHandler.load_all_groups
        (GroupHandler.sync_user_groups [] "Alice Smith" ["Devs"]).1,
      p.2.name ∉ ["Devs"] →
        "Alice Smith" ∉ p.2.entraid_human_identities) :=
  claim_C1_convergence [] "Alice Smith" ["Devs"]
    (by unfold GroupHandler.WF; decide)
    (by unfold GroupHandler.NamesNodup; decide)
    (by decide)
    (by unfold GroupHandler.countLe1; decide)
    (by decide)
    (by decide)

/-- C2 (counterexample): with the empty display name, `sync_user_groups` is
not idempotent — `_create_group_file` writes an *empty* member list for a
falsy `first_member`, so the immediate second call finds the user missing
and modifies the file again. -/
theorem claim_C2_counterexample :
    (GroupHandler.sync_user_groups
        (GroupHandler.sync_user_groups [] "" ["G"]).1 "" ["G"]).2 ≠ [] := by
  decide

/-- C2 (amended): for a non-empty display name, on a directory with distinct
filenames in which the name occurs at most once per document, a second
`sync_user_groups` with the same targets returns an empty modified list. -/
theorem claim_C2_idempotent (dir : GroupHandler.Dir) (n : String)
    (ts : List String) (hwf : GroupHandler.WF dir) (hn : n ≠ "")
    (hc : GroupHandler.countLe1 dir n) :
    (GroupHandler.sync_user_groups
        (GroupHandler.sync_user_groups dir n ts).1 n ts).2 = [] := by
  obtain ⟨hwf2, _, hjd, hld⟩ := GroupHandler.sync_stable dir n ts hwf hn hc
  rw [GroupHandler.sync_noop_of_stable _ n ts hwf2 hjd hld]

/-- C2 (witness): the amended idempotence claim at an empty directory,
display name `"Alice"` and targets `["G"]`. -/
theorem claim_C2_witness :
    (GroupHandler.sync_user_groups
        (GroupHandler.sync_user_groups [] "Alice" ["G"]).1 "Alice" ["G"]).2 = [] :=
  claim_C2_idempotent [] "Alice" ["G"]
    (by unfold GroupHandler.WF; decide)
    (by decide)
    (by unfold GroupHandler.countLe1; decide)

/-- C4 (counterexample): a join applied to a document whose list already
holds a duplicate keeps the duplicate — the mutation helpers never
deduplicate, so "contains no duplicate entries after every mutation" fails
for documents not already duplicate-free. -/
theorem claim_C4_counterexample :
    ((GroupHandler.sync_user_groups
        [("identity_group_g.yaml",
          { name := "G", entraid_human_identities := ["b", "b"],
            rest := GroupHandler.defaultRest })] "a" ["G"]).1.map
      (fun p => p.2.entraid_human_identities)) = [["a", "b", "b"]] ∧
    ¬ (["a", "b", "b"] : List String).Nodup := by
  refine ⟨by decide, by decide⟩

/-- C4 (amended): on a document whose list is duplicate-free, each single
mutation keeps it duplicate-free; the join (`_add_user_to_group`) and the
removal of `remove_user_from_all_groups` re-sort the written list, while the
leave (`_remove_user_from_group_file`) does *not* re-sort — it only
preserves sortedness when the list was already sorted. -/
theorem claim_C4_membership_list (dir : GroupHandler.Dir) (f u : String)
    (d : GroupHandler.GroupDoc)
    (hd : GroupHandler.getDoc dir f = some d)
    (hnd : d.entraid_human_identities.Nodup) :
    (u ∉ d.entraid_human_identities →
      GroupHandler.getDoc (GroupHandler.add_user_to_group dir f u).1 f =
        some { d with entraid_human_identities :=
                sortStrings (d.entraid_human_identities ++ [u]) } ∧
      (sortStrings (d.entraid_human_identities ++ [u])).Sorted
        (fun a b => strLe a b = true) ∧
      (sortStrings (d.entraid_human_identities ++ [u])).Nodup) ∧
    (u ∈ d.entraid_human_identities →
      GroupHandler.getDoc
          (GroupHandler.remove_user_from_group_file dir f u).1 f =
        some { d with entraid_human_identities :=
                d.entraid_human_identities.erase u } ∧
      (d.entraid_human_identities.erase u).Nodup ∧
      (d.entraid_human_identities.Sorted (fun a b => strLe a b = true) →
        (d.entraid_human_identities.erase u).Sorted
          (fun a b => strLe a b = true))) ∧
    (u ∈ d.entraid_human_identities →
      GroupHandler.getDoc (GroupHandler.removeAllStep u dir (f, d)).1 f =
        some { d with entraid_human_identities :=
                sortStrings (d.entraid_human_identities.erase u) } ∧
      (sortStrings (d.entraid_human_identities.erase u)).Sorted
        (fun a b => strLe a b = true) ∧
      (sortStrings (d.entraid_human_identities.erase u)).Nodup) := by
  refine ⟨?_, ?_, ?_⟩
  · intro hmem
    refine ⟨?_, sortStrings_sorted _,
      nodup_sortStrings (GroupHandler.nodup_append_singleton hnd hmem)⟩
    unfold GroupHandler.add_user_to_group
    rw [hd]
    dsimp only
    rw [if_neg hmem]
    exact GroupHandler.getDoc_writeDoc hd _
  · intro hmem
    refine ⟨?_, hnd.erase u, ?_⟩
    · unfold GroupHandler.remove_user_from_group_file
      rw [hd]
      dsimp only
      rw [if_pos hmem]
      exact GroupHandler.getDoc_writeDoc hd _
    · intro hs
      exact List.Pairwise.sublist
        (List.erase_sublist u d.entraid_human_identities) hs
  · intro hmem
    refine ⟨?_, sortStrings_sorted _, nodup_sortStrings (hnd.erase u)⟩
    unfold GroupHandler.removeAllStep
    rw [if_pos hmem]
    exact GroupHandler.getDoc_writeDoc hd _

/-- C4 (witness): the amended claim at a one-file directory, joining
`"a"` into the duplicate-free list `["b"]`. -/
theorem claim_C4_witness :
    GroupHandler.getDoc (GroupHandler.add_user_to_group
        [("f.yaml", ⟨"G", ["b"], GroupHandler.defaultRest⟩)] "f.yaml" "a").1
        "f.yaml" =
      some ⟨"G", ["a", "b"], GroupHandler.defaultRest⟩ ∧
    (["a", "b"] : List String).Sorted (fun a b => strLe a b = true) ∧
    (["a", "b"] : List String).Nodup :=
  (claim_C4_membership_list
      [("f.yaml", ⟨"G", ["b"], GroupHandler.defaultRest⟩)] "f.yaml" "a"
      ⟨"G", ["b"], GroupHandler.defaultRest⟩ rfl (by decide)).1
    (by decide)

/-- C5: on a directory with distinct filenames, `sync_user_groups` and
`remove_user_from_all_groups` leave every pre-existing file's name, group
name and non-membership fields (contact, type, the three other lists, the
policies) unchanged, in order — the reconciler touches only the
externally-synchronised membership list. -/
theorem claim_C5_frame (dir : GroupHandler.Dir) (n u : String)
    (ts : List String) (hwf : GroupHandler.WF dir) :
    ((GroupHandler.sync_user_groups dir n ts).1.map GroupHandler.kappa).take
        dir.length = dir.map GroupHandler.kappa ∧
    (GroupHandler.remove_user_from_all_groups dir u).1.map GroupHandler.kappa =
      dir.map GroupHandler.kappa := by
  refine ⟨?_, GroupHandler.remove_user_from_all_groups_kappa dir u hwf⟩
  obtain ⟨ext, h⟩ := GroupHandler.sync_user_groups_kappa dir n ts hwf
  have hlen : dir.length = (dir.map GroupHandler.kappa).length :=
    (List.length_map dir GroupHandler.kappa).symm
  rw [h, hlen]
  exact List.take_left _ _

/-- C5 (witness): the frame claim at a one-file directory, with a join of
`"Bob"` and a removal of `"Alice"`. -/
theorem claim_C5_witness :
    ((GroupHandler.sync_user_groups
        [("identity_group_g.yaml", ⟨"G", ["Alice"], GroupHandler.defaultRest⟩)]
        "Bob" ["G"]).1.map GroupHandler.kappa).take
        ([("identity_group_g.yaml",
          (⟨"G", ["Alice"], GroupHandler.defaultRest⟩ : GroupHandler.GroupDoc))].length) =
      ([("identity_group_g.yaml",
        (⟨"G", ["Alice"], GroupHandler.defaultRest⟩ : GroupHandler.GroupDoc))].map
        GroupHandler.kappa) ∧
    (GroupHandler.remove_user_from_all_groups
        [("identity_group_g.yaml", ⟨"G", ["Alice"], GroupHandler.defaultRest⟩)]
        "Alice").1.map GroupHandler.kappa =
      ([("identity_group_g.yaml",
        (⟨"G", ["Alice"], GroupHandler.defaultRest⟩ : GroupHandler.GroupDoc))].map
        GroupHandler.kappa) :=
  claim_C5_frame
    [("identity_group_g.yaml", ⟨"G", ["Alice"], GroupHandler.defaultRest⟩)]
    "Bob" "Alice" ["G"] (by unfold GroupHandler.WF; decide)

end VaultScim
